import Mathlib

/-
Verification of the structural editor core of Gregoor/upcode
(src/components/editor.js) against its natural-language specification.

Modelling conventions:
- The document tree is the Immutable.js value held in each EditorState:
  nested Maps (string-keyed records) and Lists, with leaves for strings,
  numbers, booleans and null.  AST nodes are tag-carrying records, so the
  babel-types shape predicates (isObjectProperty, isObjectExpression, ...)
  are modelled as tests of the "type" field, and reading a plain field of a
  node (such as targetItem.value in moveSelected) reads that record field.
- Paths are lists of steps; a step is a string field name or an integer
  collection index.  Immutable.js accepts negative indices (they wrap from
  the end of a List) and the code can produce the index NaN through
  parseInt, so steps also carry a NaN constructor that addresses nothing.
- JavaScript numbers are modelled on the integer fragment the editor
  manipulates; parseFloat and Number#toString are modelled on that
  fragment, with none standing for NaN.
- The onChange callback receives the output of the external babel
  generator applied to the new tree; since the generator is an opaque
  external service, a commit is modelled as additionally returning the
  list of trees handed to generator + onChange (empty or a singleton).
-/

set_option autoImplicit false

namespace Upcode

/-- One step of a selection path: a field name, a collection index (negative
indices are meaningful to Immutable.js and wrap from the end), or the NaN
index that the source can produce via parseInt on a non-numeric step. -/
inductive Step where
  | field (s : String)
  | index (i : Int)
  | nanIdx
deriving DecidableEq, Repr

/-- An Immutable.js value: the document tree of the editor.  Maps are
modelled as insertion-ordered association lists with string keys, which is
how every tree the editor builds uses them. -/
inductive Val where
  | vnull
  | vbool (b : Bool)
  | vnum (n : Int)
  | vstr (s : String)
  | vlist (xs : List Val)
  | vmap (kvs : List (String × Val))

mutual

/-- Deep value equality on trees: Immutable.is on the structures the
editor builds. -/
def Val.beq : Val → Val → Bool
  | .vnull, .vnull => true
  | .vbool a, .vbool b => a = b
  | .vnum a, .vnum b => a = b
  | .vstr a, .vstr b => a = b
  | .vlist xs, .vlist ys => beqValList xs ys
  | .vmap xs, .vmap ys => beqValKVs xs ys
  | _, _ => false

def beqValList : List Val → List Val → Bool
  | [], [] => true
  | a :: as, b :: bs => Val.beq a b && beqValList as bs
  | _, _ => false

def beqValKVs : List (String × Val) → List (String × Val) → Bool
  | [], [] => true
  | (k, v) :: as, (k', v') :: bs => k = k' && Val.beq v v' && beqValKVs as bs
  | _, _ => false

end

theorem val_beq_sound : ∀ n : Nat,
    (∀ a b : Val, sizeOf a ≤ n → (Val.beq a b = true ↔ a = b)) ∧
    (∀ xs ys : List Val, sizeOf xs ≤ n → (beqValList xs ys = true ↔ xs = ys)) ∧
    (∀ xs ys : List (String × Val), sizeOf xs ≤ n →
      (beqValKVs xs ys = true ↔ xs = ys)) := by
  intro n
  induction n with
  | zero =>
      refine ⟨fun a b h => ?_, fun xs ys h => ?_, fun xs ys h => ?_⟩
      · cases a <;> simp_all
      · cases xs <;> simp_all
      · cases xs <;> simp_all
  | succ n ih =>
      obtain ⟨ihv, ihl, ihk⟩ := ih
      refine ⟨fun a b h => ?_, fun xs ys h => ?_, fun xs ys h => ?_⟩
      · cases a <;> cases b <;>
          simp_all [Val.beq] <;>
          first
            | (apply ihl; omega)
            | (apply ihk; omega)
      · cases xs with
        | nil => cases ys <;> simp [beqValList]
        | cons a as =>
            cases ys with
            | nil => simp [beqValList]
            | cons b bs =>
                have h1 : sizeOf a ≤ n := by simp_all; omega
                have h2 : sizeOf as ≤ n := by simp_all; omega
                simp [beqValList, ihv a b h1, ihl as bs h2]
      · cases xs with
        | nil => cases ys <;> simp [beqValKVs]
        | cons a as =>
            cases ys with
            | nil => simp [beqValKVs]
            | cons b bs =>
                obtain ⟨k, v⟩ := a
                obtain ⟨k', v'⟩ := b
                have h1 : sizeOf v ≤ n := by simp_all; omega
                have h2 : sizeOf as ≤ n := by simp_all; omega
                simp [beqValKVs, ihv v v' h1, ihk as bs h2, and_assoc]

instance : DecidableEq Val := fun a b =>
  decidable_of_iff (Val.beq a b = true)
    ((val_beq_sound (sizeOf a)).1 a b (Nat.le_refl _))

abbrev ASTPath := List Step

/-- Immutable.js List.get: negative indices wrap from the end; anything
still out of range is undefined. -/
def listGet (xs : List Val) (i : Int) : Option Val :=
  if i < 0 then
    if (xs.length : Int) + i < 0 then none
    else xs.get? ((xs.length : Int) + i).toNat
  else xs.get? i.toNat

/-- Insert clamped at a nonnegative position (JavaScript splice semantics:
positions beyond the end append at the end). -/
def insertAt : List Val → Nat → Val → List Val
  | xs, 0, v => v :: xs
  | [], _ + 1, v => [v]
  | x :: xs, n + 1, v => x :: insertAt xs n v

/-- Immutable.js List.insert(index, value): splice coerces a non-numeric
index to 0, clamps negative indices at -size, and clamps large ones at
size. -/
def listInsert (xs : List Val) (st : Step) (v : Val) : List Val :=
  match st with
  | .index i =>
      if i < 0 then insertAt xs ((xs.length : Int) + i).toNat v
      else insertAt xs i.toNat v
  | _ => v :: xs

/-- Immutable.js List.delete(index): splice removes one element at the
(wrapped, clamped) index; an index at or beyond size removes nothing. -/
def listDelete (xs : List Val) (st : Step) : List Val :=
  match st with
  | .index i =>
      if i < 0 then xs.eraseIdx ((xs.length : Int) + i).toNat
      else xs.eraseIdx i.toNat
  | _ => xs.eraseIdx 0

/-- Immutable.js List.set at an existing (possibly wrapped) index; setting
outside the current range is not exercised by the editor and leaves the
list unchanged here. -/
def listSet (xs : List Val) (i : Int) (v : Val) : List Val :=
  if i < 0 then xs.set ((xs.length : Int) + i).toNat v
  else xs.set i.toNat v

/-- Immutable.js Map.set on an insertion-ordered association list. -/
def setAssoc (kvs : List (String × Val)) (k : String) (v : Val) :
    List (String × Val) :=
  match kvs with
  | [] => [(k, v)]
  | (k', v') :: rest =>
      if k' = k then (k, v) :: rest else (k', v') :: setAssoc rest k v

/-- One step of Immutable.js getIn: Map.get for a field name on a Map,
List.get for an index on a List; any other combination is undefined. -/
def Val.getKey (v : Val) (st : Step) : Option Val :=
  match v, st with
  | .vmap kvs, .field s => (kvs.find? (fun kv => kv.1 = s)).map (fun kv => kv.2)
  | .vlist xs, .index i => listGet xs i
  | _, _ => none

/-- Immutable.js getIn: getIn([]) is the value itself. -/
def Val.getIn : Val → ASTPath → Option Val
  | v, [] => some v
  | v, k :: p =>
    match v.getKey k with
    | some w => w.getIn p
    | none => none

/-- One step of Immutable.js setIn on an existing key. -/
def Val.setKey (v : Val) (st : Step) (x : Val) : Val :=
  match v, st with
  | .vmap kvs, .field s => .vmap (setAssoc kvs s x)
  | .vlist xs, .index i => .vlist (listSet xs i x)
  | v, _ => v

/-- Immutable.js updateIn restricted to paths that resolve (every path the
editor updates does resolve; the create-missing-keys behaviour of
Immutable.js is never exercised and a non-resolving path leaves the tree
unchanged here). -/
def Val.updateIn (v : Val) (p : ASTPath) (f : Val → Val) : Val :=
  match p with
  | [] => f v
  | k :: p' =>
    match v.getKey k with
    | some w => v.setKey k (w.updateIn p' f)
    | none => v

/-- One step of Immutable.js deleteIn: removing a Map entry or splicing a
List element. -/
def Val.deleteKey (v : Val) (st : Step) : Val :=
  match v, st with
  | .vmap kvs, .field s => .vmap (kvs.filter (fun kv => kv.1 ≠ s))
  | .vlist xs, st => .vlist (listDelete xs st)
  | v, _ => v

/-- Immutable.js deleteIn restricted to paths that resolve; deleteIn([]) is
also never exercised on the branch where its result is used. -/
def Val.deleteIn : Val → ASTPath → Val
  | v, [] => v
  | v, [k] => v.deleteKey k
  | v, k :: p =>
    match v.getKey k with
    | some w => v.setKey k (w.deleteIn p)
    | none => v

/-- The babel-types node builders used by the editor, with the fields the
editor reads. -/
def stringLiteral (s : String) : Val :=
  .vmap [("type", .vstr "StringLiteral"), ("value", .vstr s)]

def numericLiteral (n : Int) : Val :=
  .vmap [("type", .vstr "NumericLiteral"), ("value", .vnum n)]

def nullLiteral : Val :=
  .vmap [("type", .vstr "NullLiteral")]

def booleanLiteral (b : Bool) : Val :=
  .vmap [("type", .vstr "BooleanLiteral"), ("value", .vbool b)]

def objectProperty (k v : Val) : Val :=
  .vmap [("type", .vstr "ObjectProperty"), ("key", k), ("value", v)]

def objectExpression (ps : List Val) : Val :=
  .vmap [("type", .vstr "ObjectExpression"), ("properties", .vlist ps)]

def arrayExpression (es : List Val) : Val :=
  .vmap [("type", .vstr "ArrayExpression"), ("elements", .vlist es)]

/-- Modelled from the spec: the root document wrapper produced by the
external parse function (src/utils/parse.js is not part of the given
source).  A File node holds a Program whose body list carries the document
expression at slot 0, matching the canonical root selection
List.of("program", "body") of the source. -/
def fileAST (body : List Val) : Val :=
  .vmap [("type", .vstr "File"),
         ("program", .vmap [("type", .vstr "Program"), ("body", .vlist body)])]

/-- The type tag of a node, when it has one. -/
def nodeType (v : Val) : Option String :=
  match v.getKey (.field "type") with
  | some (.vstr s) => some s
  | _ => none

def isStringLiteral (v : Val) : Bool := nodeType v = some "StringLiteral"
def isNumericLiteral (v : Val) : Bool := nodeType v = some "NumericLiteral"
def isIdentifier (v : Val) : Bool := nodeType v = some "Identifier"
def isNullLiteral (v : Val) : Bool := nodeType v = some "NullLiteral"
def isObjectExpression (v : Val) : Bool := nodeType v = some "ObjectExpression"
def isArrayExpression (v : Val) : Bool := nodeType v = some "ArrayExpression"
def isObjectProperty (v : Val) : Bool := nodeType v = some "ObjectProperty"

/-- isEditable from the source: string literal, numeric literal or
identifier. -/
def isEditable (v : Val) : Bool :=
  isStringLiteral v || isNumericLiteral v || isIdentifier v

/-- The babel-types predicates return false on undefined. -/
def isEditableO : Option Val → Bool
  | some v => isEditable v
  | none => false

def isObjectPropertyO : Option Val → Bool
  | some v => isObjectProperty v
  | none => false

def isObjectExpressionO : Option Val → Bool
  | some v => isObjectExpression v
  | none => false

/-- The branch condition of moveSelected on the target sibling:
isObjectProperty(targetItem) and isObjectExpression(targetItem.value). -/
def propWithObjectValue : Option Val → Bool
  | some t =>
      isObjectProperty t &&
        (match t.getKey (.field "value") with
         | some w => isObjectExpression w
         | none => false)
  | none => false

/-- A step that is one of the collection field names scanned for by
getClosestCollectionPath. -/
def isCollStep (st : Step) : Bool :=
  st = .field "elements" || st = .field "properties"

/-- selected.slice(0, selected.findLastIndex(isCollStep) + 1): the prefix of
the path up to and including its last "elements" or "properties" step, or
the empty path when there is none (findLastIndex yields -1). -/
def takeToLastColl : ASTPath → ASTPath
  | [] => []
  | s :: rest =>
      if rest.any isCollStep then s :: takeToLastColl rest
      else if isCollStep s then [s] else []

/-- getClosestCollectionPath from the source: the properties or elements
list of the selected node when it is itself an object or array expression,
otherwise the prefix of the selection up to its innermost collection step.
The source converts the selected node with toJS() before the type tests
and would fail on a selection that does not resolve; that case never
arises on committed selections and falls through to the scan here. -/
def getClosestCollectionPath (ast : Val) (selected : ASTPath) : ASTPath :=
  match ast.getIn selected with
  | some node =>
      if isObjectExpression node then selected ++ [.field "properties"]
      else if isArrayExpression node then selected ++ [.field "elements"]
      else takeToLastColl selected
  | none => takeToLastColl selected

/-- Modelled from the spec: JavaScript parseFloat on the numeric-literal
values the editor manipulates, restricted to the integer-valued fragment;
none stands for NaN. -/
def jsParseFloat : Val → Option Int
  | .vnum n => some n
  | .vstr s => s.toInt?
  | _ => none

/-- Modelled from the spec: JavaScript number-to-string conversion on the
same fragment. -/
def jsNumToString : Option Int → String
  | some n => toString n
  | none => "NaN"

/-- parseFloat(value).toString(): the canonical textual form a numeric
literal is re-normalized to at the start of a commit. -/
def renormVal (v : Val) : Val :=
  .vstr (jsNumToString (jsParseFloat v))

/-- An EditorState of the source: the immutable (ast, selected) snapshot
stored on the history and future stacks. -/
structure EditorState where
  ast : Val
  selected : ASTPath
deriving DecidableEq

/-- The object returned by an update function handed to addToHistory; in
the source it is spread over the current { ast, selected } defaults, so
each field is optional.  A no-op update function returns undefined, which
is modelled as none at the UpdFn level. -/
structure UpdOut where
  ast : Option Val := none
  selected : Option ASTPath := none

abbrev UpdFn := Val → ASTPath → Option UpdOut

/-- The component state of the Editor: the redo stack and the bounded
history stack (the current EditorState is the head of history). -/
structure HistState where
  future : List EditorState
  history : List EditorState
deriving DecidableEq

def MAX_HISTORY_LENGTH : Nat := 100

/-- The selection fallback at the start of addToHistory: a selection that
does not resolve and does not end in the "end" sentinel is replaced by the
empty path. -/
def normSel (st : EditorState) : ASTPath :=
  if st.selected.getLast? ≠ some (.field "end") ∧ st.ast.getIn st.selected = none
  then [] else st.selected

/-- The numeric re-normalization at the start of addToHistory: when the
(possibly replaced) selection resolves to a numeric literal, its "value"
field is rewritten to parseFloat(value).toString(). -/
def normAst (st : EditorState) : Val :=
  let sel := normSel st
  match st.ast.getIn sel with
  | some node =>
      if isNumericLiteral node
      then st.ast.updateIn (sel ++ [.field "value"]) renormVal
      else st.ast
  | none => st.ast

/-- newState of addToHistory: the update function is applied to the
normalized tree and selection and its result is spread over them. -/
def commitResult (f : UpdFn) (st : EditorState) : EditorState :=
  let a := normAst st
  let sel := normSel st
  let r := f a sel
  { ast := (r.bind UpdOut.ast).getD a,
    selected := (r.bind UpdOut.selected).getD sel }

/-- addToHistory from the source.  The returned list holds the trees that
are handed to the external generator and the onChange callback (empty when
the tree is pristine).  When both tree and selection are unchanged the
setState updater returns undefined and the component state is untouched;
otherwise the new state is pushed, the history is capped at 100 entries
and the future stack is cleared. -/
def addToHistory (f : UpdFn) (s : HistState) : HistState × List Val :=
  match s.history with
  | [] => (s, [])
  | st :: _ =>
    let ns := commitResult f st
    let events := if ns.ast = normAst st then ([] : List Val) else [ns.ast]
    if ns.selected = normSel st ∧ ns.ast = normAst st then (s, events)
    else ({ future := [],
            history := (ns :: s.history).take MAX_HISTORY_LENGTH }, events)

/-- undo from the source: the history is shifted only when it has more
than one entry, but the pre-shift head is unshifted onto future in every
case. -/
def undoH (s : HistState) : HistState :=
  { future :=
      match s.history.head? with
      | some h => h :: s.future
      | none => s.future,
    history := if s.history.length > 1 then s.history.tail else s.history }

/-- redo from the source: when future is nonempty its head is unshifted
back onto history (with no cap applied); future is always shifted. -/
def redoH (s : HistState) : HistState :=
  match s.future with
  | [] => { future := [], history := s.history }
  | f :: fs => { future := fs, history := f :: s.history }

/-- An action against the History Manager. -/
inductive Op where
  | commit (f : UpdFn)
  | undo
  | redo

/-- One dispatched action together with the trees handed to
generator + onChange while performing it (undo and redo contain no call to
either). -/
def stepOp (s : HistState) : Op → HistState × List Val
  | .commit f => addToHistory f s
  | .undo => (undoH s, [])
  | .redo => (redoH s, [])

def runOps : HistState → List Op → HistState
  | s, [] => s
  | s, op :: ops => runOps (stepOp s op).1 ops

def runCommits : HistState → List UpdFn → HistState
  | s, [] => s
  | s, f :: fs => runCommits (addToHistory f s).1 fs

/-- The successive committed states of a sequence of commits. -/
def committedStates : HistState → List UpdFn → List EditorState
  | _, [] => []
  | s, f :: fs =>
    match s.history with
    | st :: _ => commitResult f st :: committedStates (addToHistory f s).1 fs
    | [] => []

/-- Every commit of the sequence changes the tree (a sequence of distinct
tree-changing commits). -/
def allChange : HistState → List UpdFn → Bool
  | _, [] => true
  | s, f :: fs =>
    match s.history with
    | st :: _ =>
        (commitResult f st).ast ≠ normAst st && allChange (addToHistory f s).1 fs
    | [] => false

inductive Direction where
  | up
  | down
  | left
  | right
deriving DecidableEq

/-- typeof step === "number": integers and NaN are both numbers in
JavaScript. -/
def isIndexStep : Step → Bool
  | .index _ => true
  | .nanIdx => true
  | .field _ => false

/-- Position of the last numeric step of a path, when there is one. -/
def lastIndexPos : ASTPath → Option Nat
  | [] => none
  | s :: rest =>
      match lastIndexPos rest with
      | some k => some (k + 1)
      | none => if isIndexStep s then some 0 else none

/-- Modelled from the spec: the selection navigator (src/navigate.js is not
part of the given source).  DOWN enters a collection at index 0 (or the
"end" sentinel when empty) or the value of an object property and stops at
editable leaves; UP exits to the position of the nearest enclosing
collection entry; LEFT and RIGHT move between indices of the nearest
enclosing collection, with RIGHT landing on the "end" sentinel past the
last index. -/
def navigate (d : Direction) (ast : Val) (selected : ASTPath) : ASTPath :=
  match d with
  | .down =>
      (match ast.getIn selected with
       | some node =>
           if isObjectExpression node then
             selected ++ [.field "properties"] ++
               (match node.getKey (.field "properties") with
                | some (.vlist []) => [.field "end"]
                | _ => [.index 0])
           else if isArrayExpression node then
             selected ++ [.field "elements"] ++
               (match node.getKey (.field "elements") with
                | some (.vlist []) => [.field "end"]
                | _ => [.index 0])
           else if isObjectProperty node then selected ++ [.field "value"]
           else selected
       | none => selected)
  | .up =>
      (match lastIndexPos selected with
       | some k =>
           if selected.length > k + 1 then selected.take (k + 1)
           else selected.take (k - 1)
       | none => [])
  | .left =>
      (let cp := takeToLastColl selected
       if cp = [] then selected
       else
         match selected.get? cp.length with
         | some (.field "end") =>
             (match ast.getIn cp with
              | some (.vlist (x :: xs)) => cp ++ [.index ((x :: xs).length - 1)]
              | _ => selected)
         | some (.index i) => if i ≤ 0 then selected else cp ++ [.index (i - 1)]
         | _ => selected)
  | .right =>
      (let cp := takeToLastColl selected
       if cp = [] then selected
       else
         match selected.get? cp.length with
         | some (.index i) =>
             (match ast.getIn cp with
              | some (.vlist xs) =>
                  if i + 1 < (xs.length : Int) then cp ++ [.index (i + 1)]
                  else cp ++ [.field "end"]
              | _ => selected)
         | _ => selected)

/-- deleteSelected from the source, as the update function it hands to
addToHistory: the element at the nearest indexable ancestor position is
removed; deleting the whole document (empty selection, or a two-step
selection ending in the "end" sentinel) replaces the tree by a null
literal; the new selection re-resolves a neighbor by navigating UP in the
old tree and DOWN in the new one, except for "end" selections which clear
the selection. -/
def deleteFn : UpdFn := fun ast selected =>
  let newAST := ast.deleteIn
    (match lastIndexPos selected with
     | some k => selected.take (k + 1)
     | none => [])
  let isASTDelete :=
    selected = [] ∨ (selected.length = 2 ∧ selected.getLast? = some (.field "end"))
  some
    { ast := some (if isASTDelete then nullLiteral else newAST),
      selected := some
        (if isASTDelete ∨ selected.getLast? = some (.field "end") then []
         else navigate .down newAST (navigate .up ast selected)) }

/-- list.insert(itemIndex, v) as an updater on the tree value holding the
collection. -/
def valListInsert (st : Step) (v : Val) : Val → Val
  | .vlist xs => .vlist (listInsert xs st v)
  | other => other

/-- collection.delete(itemIndex) as an updater on the tree value holding
the collection. -/
def valListDelete (st : Step) : Val → Val
  | .vlist xs => .vlist (listDelete xs st)
  | other => other

/-- selected.get(collectionPath.size) + 1 || 0 from insert: a number step
becomes the next index (the sum 0, from index -1, is falsy and yields 0,
which is the same index); undefined and NaN yield 0; a string step is
string-concatenated with "1" and stays truthy. -/
def insertItemIndex (selected : ASTPath) (cpLen : Nat) : Step :=
  match selected.get? cpLen with
  | some (.index i) => .index (i + 1)
  | some (.field f) => .field (f ++ "1")
  | some .nanIdx => .index 0
  | none => .index 0

/-- insert from the source, as the update function it hands to
addToHistory.  The node is inserted after the selected element (or at the
append position for an "end" selection); an enclosing object expression
wraps it as an empty-string-keyed property and selects the key field, an
enclosing array expression inserts it as is and selects the element; any
other enclosing node is a no-op.  The source reads the collection parent
with toJS() and would fail when that path does not resolve; that case is a
no-op here. -/
def insertFn (node : Val) : UpdFn := fun ast selected =>
  let lastEnd := selected.getLast? = some (.field "end")
  let collectionPath := getClosestCollectionPath ast
    (if lastEnd then selected.take (selected.length - 3) else selected)
  let itemIndex : Step :=
    if lastEnd then .index collectionPath.length
    else insertItemIndex selected collectionPath.length
  match ast.getIn collectionPath.dropLast with
  | some collectionNode =>
      let isArr := isArrayExpression collectionNode
      let isObj := isObjectExpression collectionNode
      if ¬ isArr ∧ ¬ isObj then none
      else
        some
          { ast := some (ast.updateIn collectionPath
              (valListInsert itemIndex
                (if isArr then node else objectProperty (stringLiteral "") node))),
            selected := some (collectionPath ++ [itemIndex] ++
              (if isArr then [] else [.field "key"])) }
  | none => none

/-- newItemIndex < 0 from moveSelected: false when parseInt produced NaN
(every comparison with NaN is false in JavaScript). -/
def negNewIndex : Option Int → Bool
  | some j => decide (j < 0)
  | none => false

/-- selected.get(collectionPath.size) || 0 from moveSelected: a number
stays itself (0 is falsy but the fallback is again 0), undefined and NaN
become 0, and a string step survives unless it is empty. -/
def moveItemIndex (selected : ASTPath) (cpLen : Nat) : Step :=
  match selected.get? cpLen with
  | some (.index i) => .index i
  | some (.field f) => if f = "" then .index 0 else .field f
  | some .nanIdx => .index 0
  | none => .index 0

/-- moveSelected from the source.  Three branches, in order: a property
whose target sibling is a property holding an object expression is moved
inside that object (at its properties tail when moving UP and head when
moving DOWN); at a collection boundary a property is moved out into an
enclosing object expression one level up, next to the property holding
its old collection (before it when moving UP, after it when moving DOWN),
or the move is a no-op; otherwise the element and its adjacent sibling
swap positions.  parseInt on a non-numeric step yields NaN, modelled by
none and the nanIdx path step. -/
def moveSelected (isMoveUp : Bool) (ast : Val) (selected : ASTPath) :
    Option (Val × ASTPath) :=
  let collectionPath := getClosestCollectionPath ast selected
  let itemIndex : Step :=
    if selected.getLast? = some (.field "end") then .index collectionPath.length
    else moveItemIndex selected collectionPath.length
  let itemPath := collectionPath ++ [itemIndex]
  let item := ast.getIn itemPath
  let isItemObjectProperty := isObjectPropertyO item
  let newItemIndex : Option Int :=
    match itemIndex with
    | .index i => some (i + (if isMoveUp then -1 else 1))
    | _ => none
  let newItemStep : Step :=
    match newItemIndex with
    | some j => .index j
    | none => .nanIdx
  let newItemPath := collectionPath ++ [newItemStep]
  let targetItem := ast.getIn newItemPath
  if isItemObjectProperty ∧ propWithObjectValue targetItem then
    let it := item.getD .vnull
    let targetObjectPath := newItemPath ++ [.field "value", .field "properties"]
    let targetIndex : Nat :=
      if isMoveUp then
        match ast.getIn targetObjectPath with
        | some (.vlist xs) => xs.length
        | _ => 0
      else 0
    some
      (ast.updateIn targetObjectPath (valListInsert (.index targetIndex) it)
         |>.updateIn collectionPath (valListDelete itemIndex),
       collectionPath ++
         [.index (newItemIndex.getD 0 + (if isMoveUp then 0 else -1)),
          .field "value", .field "properties", .index (targetIndex : Int)] ++
         selected.drop (collectionPath.length + 1))
  else if negNewIndex newItemIndex ∨ targetItem = none then
    let collectionIndexPath := newItemPath.take (newItemPath.length - 3)
    let parentCollectionPath := getClosestCollectionPath ast collectionIndexPath
    if ¬ isItemObjectProperty
        ∨ ¬ isObjectExpressionO (ast.getIn parentCollectionPath.dropLast) then
      none
    else
      let collectionIndex : Step :=
        if collectionIndexPath.getLast? = some (.field "end") then
          .index parentCollectionPath.length
        else moveItemIndex selected parentCollectionPath.length
      let newItemIndex2 : Step :=
        match collectionIndex with
        | .index i => .index (i + (if isMoveUp then 0 else 1))
        | _ => .nanIdx
      let it := item.getD .vnull
      some
        (ast.updateIn collectionPath (valListDelete itemIndex)
           |>.updateIn parentCollectionPath (valListInsert newItemIndex2 it),
         parentCollectionPath ++ [newItemIndex2] ++ selected.drop itemPath.length)
  else
    match targetItem with
    | some tg =>
        some
          (ast.updateIn itemPath (fun _ => tg)
             |>.updateIn newItemPath (fun _ => item.getD .vnull),
           selected.set collectionPath.length newItemStep)
    | none => none

/-- The MOVE action: moveSelected as the update function handed to
addToHistory. -/
def moveUpdFn (isMoveUp : Bool) : UpdFn := fun a s =>
  (moveSelected isMoveUp a s).map fun r => { ast := some r.1, selected := some r.2 }

/-- handleCopy from the source: nothing for an editable leaf selection;
otherwise the clipboard receives the rendering of the node at the
selection, backing off the index / "end" pair of an "end" selection.  The
external generator is an opaque parameter.  The source would fail
rendering an unresolved node, modelled as no export. -/
def handleCopy (gen : Val → String) (st : EditorState) : Option String :=
  if isEditableO (st.ast.getIn st.selected) then none
  else
    let sel :=
      if st.selected.getLast? = some (.field "end")
      then st.selected.take (st.selected.length - 2)
      else st.selected
    match st.ast.getIn sel with
    | some node => some (gen node)
    | none => none

/-- handleCut from the source: nothing for an editable leaf selection;
otherwise handleCopy followed by deleteSelected. -/
def handleCut (gen : Val → String) (s : HistState) : Option String × HistState :=
  match s.history with
  | [] => (none, s)
  | st :: _ =>
      if isEditableO (st.ast.getIn st.selected) then (none, s)
      else (handleCopy gen st, (addToHistory deleteFn s).1)

/-- The canonical root selection of the source, List.of("program", "body"),
extended to the document expression at body slot 0. -/
def rootSlot : ASTPath := [.field "program", .field "body", .index 0]

theorem getIn_append (v : Val) (p q : ASTPath) :
    v.getIn (p ++ q) = (v.getIn p).bind (fun w => w.getIn q) := by
  induction p generalizing v with
  | nil => simp [Val.getIn]
  | cons k p ih =>
      simp only [List.cons_append, Val.getIn]
      cases v.getKey k with
      | none => simp
      | some w => simp [ih w]

theorem find?_setAssoc (kvs : List (String × Val)) (k : String) (x : Val) :
    (setAssoc kvs k x).find? (fun kv => kv.1 = k) = some (k, x) := by
  induction kvs with
  | nil => simp [setAssoc]
  | cons kv rest ih =>
      obtain ⟨k', v'⟩ := kv
      by_cases h : k' = k
      · simp [setAssoc, h, List.find?]
      · simp only [setAssoc, if_neg h]
        rw [List.find?_cons_of_neg _ (by simpa using h), ih]

theorem listGet_listSet_self (xs : List Val) (i : Int) (x w : Val)
    (h : listGet xs i = some w) : listGet (listSet xs i x) i = some x := by
  by_cases hi : i < 0
  · simp only [listGet, if_pos hi] at h
    by_cases hb : (xs.length : Int) + i < 0
    · simp [hb] at h
    · simp only [if_neg hb] at h
      have hlt : ((xs.length : Int) + i).toNat < xs.length := by
        by_contra hge
        rw [List.get?_eq_getElem?, List.getElem?_eq_none (by omega)] at h
        exact Option.noConfusion h
      simp only [listGet, listSet, if_pos hi, List.length_set, if_neg hb,
        List.get?_eq_getElem?]
      exact List.getElem?_set_self hlt
  · simp only [listGet, if_neg hi] at h
    have hlt : i.toNat < xs.length := by
      by_contra hge
      rw [List.get?_eq_getElem?, List.getElem?_eq_none (by omega)] at h
      exact Option.noConfusion h
    simp only [listGet, listSet, if_neg hi, List.get?_eq_getElem?]
    exact List.getElem?_set_self hlt

theorem getKey_setKey_self (v : Val) (st : Step) (x w : Val)
    (h : v.getKey st = some w) : (v.setKey st x).getKey st = some x := by
  cases v with
  | vmap kvs =>
      cases st with
      | field s => simp [Val.getKey, Val.setKey, find?_setAssoc]
      | index i => simp [Val.getKey] at h
      | nanIdx => simp [Val.getKey] at h
  | vlist xs =>
      cases st with
      | field s => simp [Val.getKey] at h
      | index i =>
          simp only [Val.getKey, Val.setKey]
          exact listGet_listSet_self xs i x w (by simpa [Val.getKey] using h)
      | nanIdx => simp [Val.getKey] at h
  | vnull => simp [Val.getKey] at h
  | vbool b => simp [Val.getKey] at h
  | vnum n => simp [Val.getKey] at h
  | vstr s => simp [Val.getKey] at h

theorem getIn_updateIn_self (v : Val) (p : ASTPath) (f : Val → Val) (w : Val)
    (h : v.getIn p = some w) : (v.updateIn p f).getIn p = some (f w) := by
  induction p generalizing v with
  | nil => simp_all [Val.getIn, Val.updateIn]
  | cons k p ih =>
      simp only [Val.getIn, Val.updateIn] at *
      cases hk : v.getKey k with
      | none => rw [hk] at h; exact Option.noConfusion h
      | some u =>
          rw [hk] at h
          rw [getKey_setKey_self v k (u.updateIn p f) u hk]
          exact ih u h

theorem listGet_coe (xs : List Val) (n : Nat) : listGet xs (n : Int) = xs.get? n := by
  simp [listGet, Int.toNat_natCast]

theorem listGet_neg_one (xs : List Val) (h : xs ≠ []) :
    listGet xs (-1) = xs.getLast? := by
  have hl : 0 < xs.length := List.length_pos.mpr h
  have h1 : ¬ ((xs.length : Int) + -1 < 0) := by omega
  have h2 : ((xs.length : Int) + -1).toNat = xs.length - 1 := by omega
  simp only [listGet, if_pos (by norm_num : (-1 : Int) < 0), if_neg h1, h2]
  rw [List.getLast?_eq_getElem?, List.get?_eq_getElem?]

theorem insertAt_le_length (xs : List Val) (n : Nat) (v : Val) (h : n ≤ xs.length) :
    insertAt xs n v = xs.take n ++ v :: xs.drop n := by
  induction xs generalizing n with
  | nil =>
      have : n = 0 := by simpa using h
      simp [this, insertAt]
  | cons x xs ih =>
      cases n with
      | zero => simp [insertAt]
      | succ n => simp [insertAt, ih n (by simpa using h)]

theorem insertAt_length_self (xs : List Val) (v : Val) :
    insertAt xs xs.length v = xs ++ [v] := by
  rw [insertAt_le_length xs xs.length v (Nat.le_refl _)]
  simp

theorem listInsert_coe (xs : List Val) (n : Nat) (v : Val) :
    listInsert xs (.index (n : Int)) v = insertAt xs n v := by
  simp [listInsert, Int.toNat_natCast]

theorem get?_append_cons_self {α : Type} (l r : List α) (x : α) :
    (l ++ x :: r).get? l.length = some x := by
  rw [List.get?_eq_getElem?, List.getElem?_append_right (Nat.le_refl _)]
  simp

theorem drop_append_cons_self {α : Type} (l r : List α) (x : α) :
    (l ++ x :: r).drop (l.length + 1) = r := by
  induction l with
  | nil => simp
  | cons a l ih => simpa only [List.cons_append, List.length_cons, List.drop_succ_cons] using ih

theorem updateIn_append (v : Val) (p q : ASTPath) (f : Val → Val) :
    v.updateIn (p ++ q) f = v.updateIn p (fun w => w.updateIn q f) := by
  induction p generalizing v with
  | nil => simp [Val.updateIn]
  | cons k p ih =>
      simp only [List.cons_append, Val.updateIn]
      cases v.getKey k with
      | none => simp
      | some w => simp [ih w]

@[simp]
theorem nodeType_objectExpression (ps : List Val) :
    nodeType (objectExpression ps) = some "ObjectExpression" := by
  simp [nodeType, objectExpression, Val.getKey, List.find?]

@[simp]
theorem nodeType_arrayExpression (es : List Val) :
    nodeType (arrayExpression es) = some "ArrayExpression" := by
  simp [nodeType, arrayExpression, Val.getKey, List.find?]

@[simp]
theorem nodeType_objectProperty (k v : Val) :
    nodeType (objectProperty k v) = some "ObjectProperty" := by
  simp [nodeType, objectProperty, Val.getKey, List.find?]

@[simp]
theorem nodeType_stringLiteral (s : String) :
    nodeType (stringLiteral s) = some "StringLiteral" := by
  simp [nodeType, stringLiteral, Val.getKey, List.find?]

@[simp]
theorem nodeType_numericLiteral (n : Int) :
    nodeType (numericLiteral n) = some "NumericLiteral" := by
  simp [nodeType, numericLiteral, Val.getKey, List.find?]

@[simp]
theorem nodeType_nullLiteral : nodeType nullLiteral = some "NullLiteral" := by
  simp [nodeType, nullLiteral, Val.getKey, List.find?]

theorem propWithObjectValue_objectProperty (k v : Val) :
    propWithObjectValue (some (objectProperty k v)) = isObjectExpression v := by
  have h1 : (objectProperty k v).getKey (.field "value") = some v := by
    simp [objectProperty, Val.getKey, List.find?]
  simp [propWithObjectValue, isObjectProperty, h1]

theorem getIn_fileAST (x : Val) : (fileAST [x]).getIn rootSlot = some x := by
  simp [fileAST, rootSlot, Val.getIn, Val.getKey, List.find?, listGet]

theorem getIn_object_props (ps : List Val) :
    (objectExpression ps).getIn [.field "properties"] = some (.vlist ps) := by
  simp [objectExpression, Val.getIn, Val.getKey, List.find?]

theorem getIn_array_elems (es : List Val) :
    (arrayExpression es).getIn [.field "elements"] = some (.vlist es) := by
  simp [arrayExpression, Val.getIn, Val.getKey, List.find?]

theorem getIn_prop_value (k v : Val) :
    (objectProperty k v).getIn [.field "value"] = some v := by
  simp [objectProperty, Val.getIn, Val.getKey, List.find?]

theorem getIn_vlist_at (xs : List Val) (n : Nat) (x : Val) (h : xs.get? n = some x) :
    (Val.vlist xs).getIn [.index (n : Int)] = some x := by
  rw [List.get?_eq_getElem?] at h
  simp [Val.getIn, Val.getKey, listGet_coe, List.get?_eq_getElem?, h]

theorem updateIn_fileAST (x : Val) (g : Val → Val) :
    (fileAST [x]).updateIn rootSlot g = fileAST [g x] := by
  simp [fileAST, rootSlot, Val.updateIn, Val.getIn, Val.getKey, List.find?, listGet,
    Val.setKey, setAssoc, listSet]

theorem updateIn_object_props (ps : List Val) (g : Val → Val) :
    (objectExpression ps).updateIn [.field "properties"] g =
      .vmap [("type", .vstr "ObjectExpression"), ("properties", g (.vlist ps))] := by
  simp [objectExpression, Val.updateIn, Val.getKey, List.find?, Val.setKey, setAssoc]

theorem updateIn_array_elems (es : List Val) (g : Val → Val) :
    (arrayExpression es).updateIn [.field "elements"] g =
      .vmap [("type", .vstr "ArrayExpression"), ("elements", g (.vlist es))] := by
  simp [arrayExpression, Val.updateIn, Val.getKey, List.find?, Val.setKey, setAssoc]

theorem updateIn_prop_value (k v : Val) (g : Val → Val) :
    (objectProperty k v).updateIn [.field "value"] g =
      .vmap [("type", .vstr "ObjectProperty"), ("key", k), ("value", g v)] := by
  simp [objectProperty, Val.updateIn, Val.getKey, List.find?, Val.setKey, setAssoc]

theorem updateIn_vlist_at (xs : List Val) (n : Nat) (x : Val) (g : Val → Val)
    (h : xs.get? n = some x) :
    (Val.vlist xs).updateIn [.index (n : Int)] g = .vlist (xs.set n (g x)) := by
  have hlt : n < xs.length := by
    by_contra hge
    rw [List.get?_eq_getElem?, List.getElem?_eq_none (by omega)] at h
    exact Option.noConfusion h
  rw [List.get?_eq_getElem?] at h
  simp [Val.updateIn, Val.getKey, listGet_coe, List.get?_eq_getElem?, h, Val.setKey,
    listSet, Int.toNat_natCast, (show ¬((n : Int) < 0) by omega)]

theorem insertFn_eval (node ast : Val) (selected cp : ASTPath) (iidx : Step)
    (cnode : Val)
    (h1 : selected.getLast? ≠ some (.field "end"))
    (h2 : getClosestCollectionPath ast selected = cp)
    (h3 : insertItemIndex selected cp.length = iidx)
    (h4 : ast.getIn cp.dropLast = some cnode) :
    insertFn node ast selected =
      if isArrayExpression cnode then
        some { ast := some (ast.updateIn cp (valListInsert iidx node)),
               selected := some (cp ++ [iidx]) }
      else if isObjectExpression cnode then
        some { ast := some (ast.updateIn cp
                 (valListInsert iidx (objectProperty (stringLiteral "") node))),
               selected := some (cp ++ [iidx, .field "key"]) }
      else none := by
  simp only [insertFn, h1, if_false, ite_false, if_neg h1]
  rw [h2]
  rw [h3, h4]
  by_cases ha : isArrayExpression cnode <;> by_cases ho : isObjectExpression cnode <;>
    simp [ha, ho]

theorem moveSelected_eval_nested (isMoveUp : Bool) (ast : Val)
    (selected cp : ASTPath) (ii : Int) (item tgt : Val) (ti : Nat)
    (hend : selected.getLast? ≠ some (.field "end"))
    (hcp : getClosestCollectionPath ast selected = cp)
    (hmi : moveItemIndex selected cp.length = .index ii)
    (hitem : ast.getIn (cp ++ [.index ii]) = some item)
    (hiprop : isObjectProperty item = true)
    (htgt : ast.getIn (cp ++ [.index (ii + (if isMoveUp then -1 else 1))]) = some tgt)
    (hpv : propWithObjectValue (some tgt) = true)
    (hti : (if isMoveUp then
             (match ast.getIn (cp ++ [.index (ii + (if isMoveUp then -1 else 1)),
                 .field "value", .field "properties"]) with
              | some (.vlist xs) => xs.length
              | _ => 0)
           else 0) = ti) :
    moveSelected isMoveUp ast selected = some
      (ast.updateIn (cp ++ [.index (ii + (if isMoveUp then -1 else 1)),
            .field "value", .field "properties"])
          (valListInsert (.index (ti : Int)) item)
        |>.updateIn cp (valListDelete (.index ii)),
       cp ++ [.index (ii + (if isMoveUp then -1 else 1) + (if isMoveUp then 0 else -1)),
              .field "value", .field "properties", .index (ti : Int)]
         ++ selected.drop (cp.length + 1)) := by
  simp only [moveSelected, if_neg hend]
  rw [hcp, hmi]
  rw [hitem, htgt]
  simp only [isObjectPropertyO, hiprop, hpv, true_and, if_pos]
  rw [← hti]
  simp [Option.getD]

theorem moveSelected_eval_boundary (isMoveUp : Bool) (ast : Val)
    (selected cp pcp : ASTPath) (ii ci : Int) (item : Val) (tgtO : Option Val)
    (hend : selected.getLast? ≠ some (.field "end"))
    (hcp : getClosestCollectionPath ast selected = cp)
    (hmi : moveItemIndex selected cp.length = .index ii)
    (hitem : ast.getIn (cp ++ [.index ii]) = some item)
    (hiprop : isObjectProperty item = true)
    (htgt : ast.getIn (cp ++ [.index (ii + (if isMoveUp then -1 else 1))]) = tgtO)
    (hnb1 : propWithObjectValue tgtO = false)
    (hbound : ii + (if isMoveUp then -1 else 1) < 0 ∨ tgtO = none)
    (hpcp : getClosestCollectionPath ast
        ((cp ++ [Step.index (ii + (if isMoveUp then -1 else 1))]).take
          (cp.length + 1 - 3)) = pcp)
    (hpar : isObjectExpressionO (ast.getIn pcp.dropLast) = true)
    (hcie : ((cp ++ [Step.index (ii + (if isMoveUp then -1 else 1))]).take
        (cp.length + 1 - 3)).getLast? ≠ some (.field "end"))
    (hci : moveItemIndex selected pcp.length = .index ci) :
    moveSelected isMoveUp ast selected = some
      (ast.updateIn cp (valListDelete (.index ii))
        |>.updateIn pcp
          (valListInsert (.index (ci + (if isMoveUp then 0 else 1))) item),
       pcp ++ [.index (ci + (if isMoveUp then 0 else 1))]
         ++ selected.drop (cp.length + 1)) := by
  simp only [moveSelected, if_neg hend]
  rw [hcp, hmi]
  rw [hitem, htgt]
  simp only [isObjectPropertyO, hiprop, hnb1, and_false, if_neg, Bool.false_eq_true,
    if_false]
  have hbound2 : (negNewIndex (some (ii + (if isMoveUp then -1 else 1))) = true)
      ∨ tgtO = none := by
    cases hbound with
    | inl h => exact Or.inl (by simp [negNewIndex, h])
    | inr h => exact Or.inr h
  rw [if_pos hbound2]
  simp only [List.length_append, List.length_cons, List.length_nil]
  rw [hpcp]
  rw [if_neg (by simp [hpar])]
  rw [if_neg hcie, hci]
  simp

theorem take_append_take {α : Type} (xs ys : List α) (k : Nat) :
    (xs ++ ys.take k).take k = (xs ++ ys).take k := by
  rw [List.take_append_eq_append_take, List.take_append_eq_append_take,
    List.take_take, Nat.min_eq_left (Nat.sub_le k xs.length)]

theorem stepOp_history_ne_nil (s : HistState) (op : Op) (h : s.history ≠ []) :
    (stepOp s op).1.history ≠ [] := by
  cases op with
  | commit f =>
      cases hh : s.history with
      | nil => exact absurd hh h
      | cons st rest =>
          simp only [stepOp, addToHistory, hh]
          split
          · simpa using h
          · simp [MAX_HISTORY_LENGTH, List.take_succ_cons]
  | undo =>
      simp only [stepOp, undoH]
      by_cases hl : s.history.length > 1
      · simp only [if_pos hl]
        intro hnil
        have := congrArg List.length hnil
        simp [List.length_tail] at this
        omega
      · simpa [if_neg hl] using h
  | redo =>
      cases hf : s.future with
      | nil => simpa [stepOp, redoH, hf] using h
      | cons x xs => simp [stepOp, redoH, hf]

theorem runOps_history_ne_nil (ops : List Op) (s : HistState)
    (h : s.history ≠ []) : (runOps s ops).history ≠ [] := by
  induction ops generalizing s with
  | nil => exact h
  | cons op ops ih => exact ih _ (stepOp_history_ne_nil s op h)

theorem committedStates_length (fs : List UpdFn) (s : HistState)
    (hc : allChange s fs = true) :
    (committedStates s fs).length = fs.length := by
  induction fs generalizing s with
  | nil => simp [committedStates]
  | cons f fs ih =>
      cases hh : s.history with
      | nil => simp [allChange, hh] at hc
      | cons st rest =>
          simp only [allChange, hh, Bool.and_eq_true] at hc
          simp [committedStates, hh, ih _ hc.2]

theorem runCommits_history_eq (fs : List UpdFn) (s : HistState)
    (hc : allChange s fs = true)
    (hle : s.history.length ≤ MAX_HISTORY_LENGTH) :
    (runCommits s fs).history =
      ((committedStates s fs).reverse ++ s.history).take MAX_HISTORY_LENGTH := by
  induction fs generalizing s with
  | nil =>
      simp [runCommits, committedStates, List.take_of_length_le hle]
  | cons f fs ih =>
      cases hh : s.history with
      | nil => simp [allChange, hh] at hc
      | cons st rest =>
          simp only [allChange, hh, Bool.and_eq_true, decide_eq_true_eq] at hc
          obtain ⟨hne, hc'⟩ := hc
          have hstep : (addToHistory f s).1 =
              ⟨[], (commitResult f st :: s.history).take MAX_HISTORY_LENGTH⟩ := by
            simp only [addToHistory, hh]
            rw [if_neg (by simp [hne])]
          have hlen2 : ((addToHistory f s).1).history.length ≤ MAX_HISTORY_LENGTH := by
            rw [hstep]
            simp [List.length_take]
          have := ih (addToHistory f s).1 hc' hlen2
          rw [runCommits, this, committedStates, hh]
          simp only [hstep, List.reverse_cons, List.append_assoc,
            List.singleton_append]
          rw [← hh, take_append_take]

/-- Claim C4 (corrected): in every state reachable by commits, undos and
redos the history stack is never empty, and after more than 100 distinct
tree-changing commits - with no interleaved undo or redo - the history
length is exactly 100 and holds exactly the 100 most recent committed
states.  The cap itself is not an invariant of arbitrary undo / redo
sequences, because undo at a one-entry history still unshifts the head
onto future and redo applies no cap when unshifting it back (see
C4_counterexample). -/
theorem C4_history_bound (s : HistState) (ops : List Op) (fs : List UpdFn)
    (hne : s.history ≠ []) (hle : s.history.length ≤ MAX_HISTORY_LENGTH)
    (hc : allChange s fs = true) (hlen : MAX_HISTORY_LENGTH < fs.length) :
    (runOps s ops).history ≠ [] ∧
    (runCommits s fs).history =
      (committedStates s fs).reverse.take MAX_HISTORY_LENGTH ∧
    (runCommits s fs).history.length = MAX_HISTORY_LENGTH := by
  have h2 := runCommits_history_eq fs s hc hle
  have hcs : MAX_HISTORY_LENGTH ≤ (committedStates s fs).reverse.length := by
    rw [List.length_reverse, committedStates_length fs s hc]
    omega
  have h3 : (runCommits s fs).history =
      (committedStates s fs).reverse.take MAX_HISTORY_LENGTH := by
    rw [h2, List.take_append_of_le_length hcs]
  refine ⟨runOps_history_ne_nil ops s hne, h3, ?_⟩
  rw [h3, List.length_take]
  omega

set_option maxRecDepth 40000 in
/-- Witness for C4_history_bound: from a fresh one-entry state, 101
commits that each replace the tree by a distinct string literal leave the
history at exactly the 100-entry cap. -/
theorem C4_witness :
    (runCommits ⟨[], [⟨nullLiteral, []⟩]⟩
        ((List.range 101).map (fun k => fun _ _ =>
          some { ast := some (stringLiteral (toString k)),
                 selected := some [] }))).history.length =
      MAX_HISTORY_LENGTH :=
  (C4_history_bound ⟨[], [⟨nullLiteral, []⟩]⟩ []
    ((List.range 101).map (fun k => fun _ _ =>
      some { ast := some (stringLiteral (toString k)), selected := some [] }))
    (by decide) (by decide) (by decide) (by decide)).2.2

/-- Claim C4 counterexample: starting from a one-entry history with empty
future, 100 undos (each a no-op on history but each unshifting the head
onto future) followed by 100 redos leave the history stack with 101
entries, above the claimed 100-entry bound. -/
theorem C4_counterexample :
    (runOps ⟨[], [⟨nullLiteral, []⟩]⟩
      (List.replicate 100 Op.undo ++ List.replicate 100 Op.redo)).history.length
      = 101 := by
  set_option maxRecDepth 20000 in decide



theorem insertFn_object_self (ps : List Val) (node : Val) :
    insertFn node (fileAST [objectExpression ps]) rootSlot =
      some { ast := some (fileAST [objectExpression
               (objectProperty (stringLiteral "") node :: ps)]),
             selected := some (rootSlot ++
               [.field "properties", .index 0, .field "key"]) } := by
  have h2 : getClosestCollectionPath (fileAST [objectExpression ps]) rootSlot =
      rootSlot ++ [.field "properties"] := by
    simp only [getClosestCollectionPath, getIn_fileAST]
    simp [isObjectExpression]
  have h4 : (fileAST [objectExpression ps]).getIn
      (rootSlot ++ [Step.field "properties"] : ASTPath).dropLast =
      some (objectExpression ps) := by
    rw [show ((rootSlot ++ [Step.field "properties"] : ASTPath)).dropLast = rootSlot
      from by simp [rootSlot]]
    exact getIn_fileAST _
  rw [insertFn_eval node _ rootSlot (rootSlot ++ [.field "properties"]) (.index 0)
    (objectExpression ps) (by decide) h2 (by simp [insertItemIndex, rootSlot]) h4]
  rw [if_neg (by simp [isArrayExpression]), if_pos (by simp [isObjectExpression])]
  rw [updateIn_append, updateIn_fileAST, updateIn_object_props]
  simp [valListInsert, listInsert, insertAt, objectExpression, rootSlot]

theorem insertFn_array_self (es : List Val) (node : Val) :
    insertFn node (fileAST [arrayExpression es]) rootSlot =
      some { ast := some (fileAST [arrayExpression (node :: es)]),
             selected := some (rootSlot ++ [.field "elements", .index 0]) } := by
  have h2 : getClosestCollectionPath (fileAST [arrayExpression es]) rootSlot =
      rootSlot ++ [.field "elements"] := by
    simp only [getClosestCollectionPath, getIn_fileAST]
    simp [isObjectExpression, isArrayExpression]
  have h4 : (fileAST [arrayExpression es]).getIn
      (rootSlot ++ [Step.field "elements"] : ASTPath).dropLast =
      some (arrayExpression es) := by
    rw [show ((rootSlot ++ [Step.field "elements"] : ASTPath)).dropLast = rootSlot
      from by simp [rootSlot]]
    exact getIn_fileAST _
  rw [insertFn_eval node _ rootSlot (rootSlot ++ [.field "elements"]) (.index 0)
    (arrayExpression es) (by decide) h2 (by simp [insertItemIndex, rootSlot]) h4]
  rw [if_pos (by simp [isArrayExpression])]
  rw [updateIn_append, updateIn_fileAST, updateIn_array_elems]
  simp [valListInsert, listInsert, insertAt, arrayExpression, rootSlot]



theorem insertFn_object_at (ps : List Val) (node pnode : Val) (i : Nat)
    (hp : ps.get? i = some pnode)
    (hpo : isObjectExpression pnode = false)
    (hpa : isArrayExpression pnode = false) :
    insertFn node (fileAST [objectExpression ps])
        (rootSlot ++ [.field "properties", .index (i : Int)]) =
      some { ast := some (fileAST [objectExpression
               (ps.take (i + 1) ++ objectProperty (stringLiteral "") node :: ps.drop (i + 1))]),
             selected := some (rootSlot ++
               [.field "properties", .index ((i : Int) + 1), .field "key"]) } := by
  have hpl : i < ps.length := by
    by_contra hge
    rw [List.get?_eq_getElem?, List.getElem?_eq_none (by omega)] at hp
    exact Option.noConfusion hp
  have hci : ((i : Int) + 1) = ((i + 1 : Nat) : Int) := by push_cast; ring
  have hsel : (fileAST [objectExpression ps]).getIn
      (rootSlot ++ [.field "properties", .index (i : Int)]) = some pnode := by
    rw [show (rootSlot ++ [Step.field "properties", Step.index (i : Int)] : ASTPath) =
      rootSlot ++ ([Step.field "properties"] ++ [Step.index (i : Int)]) from rfl]
    rw [getIn_append, getIn_fileAST, Option.some_bind, getIn_append,
      getIn_object_props, Option.some_bind, getIn_vlist_at ps i pnode hp]
  have h2 : getClosestCollectionPath (fileAST [objectExpression ps])
      (rootSlot ++ [.field "properties", .index (i : Int)]) =
      rootSlot ++ [.field "properties"] := by
    simp only [getClosestCollectionPath, hsel, hpo, hpa]
    simp [takeToLastColl, isCollStep, rootSlot]
  have h3 : insertItemIndex (rootSlot ++ [.field "properties", .index (i : Int)])
      ((rootSlot ++ [Step.field "properties"] : ASTPath)).length =
      .index ((i : Int) + 1) := by
    simp [insertItemIndex, rootSlot]
  have h4 : (fileAST [objectExpression ps]).getIn
      (rootSlot ++ [Step.field "properties"] : ASTPath).dropLast =
      some (objectExpression ps) := by
    rw [show ((rootSlot ++ [Step.field "properties"] : ASTPath)).dropLast = rootSlot
      from by simp [rootSlot]]
    exact getIn_fileAST _
  rw [insertFn_eval node _ _ (rootSlot ++ [.field "properties"])
    (.index ((i : Int) + 1)) (objectExpression ps)
    (by simp [rootSlot]) h2 h3 h4]
  rw [if_neg (by simp [isArrayExpression]), if_pos (by simp [isObjectExpression])]
  rw [updateIn_append, updateIn_fileAST, updateIn_object_props]
  simp only [valListInsert, hci, listInsert_coe,
    insertAt_le_length _ _ _ (by omega : i + 1 ≤ ps.length)]
  simp [objectExpression, rootSlot]

theorem insertFn_array_at (es : List Val) (node enode : Val) (j : Nat)
    (he : es.get? j = some enode)
    (heo : isObjectExpression enode = false)
    (hea : isArrayExpression enode = false) :
    insertFn node (fileAST [arrayExpression es])
        (rootSlot ++ [.field "elements", .index (j : Int)]) =
      some { ast := some (fileAST [arrayExpression
               (es.take (j + 1) ++ node :: es.drop (j + 1))]),
             selected := some (rootSlot ++
               [.field "elements", .index ((j : Int) + 1)]) } := by
  have hel : j < es.length := by
    by_contra hge
    rw [List.get?_eq_getElem?, List.getElem?_eq_none (by omega)] at he
    exact Option.noConfusion he
  have hcj : ((j : Int) + 1) = ((j + 1 : Nat) : Int) := by push_cast; ring
  have hsel : (fileAST [arrayExpression es]).getIn
      (rootSlot ++ [.field "elements", .index (j : Int)]) = some enode := by
    rw [show (rootSlot ++ [Step.field "elements", Step.index (j : Int)] : ASTPath) =
      rootSlot ++ ([Step.field "elements"] ++ [Step.index (j : Int)]) from rfl]
    rw [getIn_append, getIn_fileAST, Option.some_bind, getIn_append,
      getIn_array_elems, Option.some_bind, getIn_vlist_at es j enode he]
  have h2 : getClosestCollectionPath (fileAST [arrayExpression es])
      (rootSlot ++ [.field "elements", .index (j : Int)]) =
      rootSlot ++ [.field "elements"] := by
    simp only [getClosestCollectionPath, hsel, heo, hea]
    simp [takeToLastColl, isCollStep, rootSlot]
  have h3 : insertItemIndex (rootSlot ++ [.field "elements", .index (j : Int)])
      ((rootSlot ++ [Step.field "elements"] : ASTPath)).length =
      .index ((j : Int) + 1) := by
    simp [insertItemIndex, rootSlot]
  have h4 : (fileAST [arrayExpression es]).getIn
      (rootSlot ++ [Step.field "elements"] : ASTPath).dropLast =
      some (arrayExpression es) := by
    rw [show ((rootSlot ++ [Step.field "elements"] : ASTPath)).dropLast = rootSlot
      from by simp [rootSlot]]
    exact getIn_fileAST _
  rw [insertFn_eval node _ _ (rootSlot ++ [.field "elements"])
    (.index ((j : Int) + 1)) (arrayExpression es)
    (by simp [rootSlot]) h2 h3 h4]
  rw [if_pos (by simp [isArrayExpression])]
  rw [updateIn_append, updateIn_fileAST, updateIn_array_elems]
  simp only [valListInsert, hcj, listInsert_coe,
    insertAt_le_length _ _ _ (by omega : j + 1 ≤ es.length)]
  simp [arrayExpression, rootSlot]

/-- Claim C7 (confirmed): for a selection whose enclosing collection is an
ObjectExpression, insert wraps the given node as an ObjectProperty whose
key is an empty-string StringLiteral and whose value is the node, and the
new selection points at the key field of that property; for an enclosing
ArrayExpression the node is inserted unwrapped and the selection points at
the new element.  Stated for a document holding the collection at the root
body slot, both with the collection node itself selected and with an
arbitrary element of the collection selected. -/
theorem C7_insert_wraps_objects_not_arrays (ps es : List Val)
    (node pnode enode : Val) (i j : Nat)
    (hp : ps.get? i = some pnode)
    (hpo : isObjectExpression pnode = false)
    (hpa : isArrayExpression pnode = false)
    (he : es.get? j = some enode)
    (heo : isObjectExpression enode = false)
    (hea : isArrayExpression enode = false) :
    insertFn node (fileAST [objectExpression ps]) rootSlot =
      some { ast := some (fileAST [objectExpression
               (objectProperty (stringLiteral "") node :: ps)]),
             selected := some (rootSlot ++
               [.field "properties", .index 0, .field "key"]) } ∧
    insertFn node (fileAST [objectExpression ps])
        (rootSlot ++ [.field "properties", .index (i : Int)]) =
      some { ast := some (fileAST [objectExpression
               (ps.take (i + 1) ++
                 objectProperty (stringLiteral "") node :: ps.drop (i + 1))]),
             selected := some (rootSlot ++
               [.field "properties", .index ((i : Int) + 1), .field "key"]) } ∧
    insertFn node (fileAST [arrayExpression es]) rootSlot =
      some { ast := some (fileAST [arrayExpression (node :: es)]),
             selected := some (rootSlot ++ [.field "elements", .index 0]) } ∧
    insertFn node (fileAST [arrayExpression es])
        (rootSlot ++ [.field "elements", .index (j : Int)]) =
      some { ast := some (fileAST [arrayExpression
               (es.take (j + 1) ++ node :: es.drop (j + 1))]),
             selected := some (rootSlot ++
               [.field "elements", .index ((j : Int) + 1)]) } :=
  ⟨insertFn_object_self ps node, insertFn_object_at ps node pnode i hp hpo hpa,
   insertFn_array_self es node, insertFn_array_at es node enode j he heo hea⟩

/-- Witness for C7_insert_wraps_objects_not_arrays at concrete collections:
an object with one property and an array with two elements, the first
element selected in each case. -/
theorem C7_witness :
    insertFn nullLiteral
        (fileAST [objectExpression
          [objectProperty (stringLiteral "a") nullLiteral]]) rootSlot =
      some { ast := some (fileAST [objectExpression
               (objectProperty (stringLiteral "") nullLiteral ::
                 [objectProperty (stringLiteral "a") nullLiteral])]),
             selected := some (rootSlot ++
               [.field "properties", .index 0, .field "key"]) } ∧
    insertFn nullLiteral
        (fileAST [objectExpression
          [objectProperty (stringLiteral "a") nullLiteral]])
        (rootSlot ++ [.field "properties", .index ((0 : Nat) : Int)]) =
      some { ast := some (fileAST [objectExpression
               ([objectProperty (stringLiteral "a") nullLiteral].take (0 + 1) ++
                 objectProperty (stringLiteral "") nullLiteral ::
                   [objectProperty (stringLiteral "a") nullLiteral].drop (0 + 1))]),
             selected := some (rootSlot ++
               [.field "properties", .index (((0 : Nat) : Int) + 1), .field "key"]) } ∧
    insertFn nullLiteral
        (fileAST [arrayExpression [numericLiteral 1, numericLiteral 2]]) rootSlot =
      some { ast := some (fileAST [arrayExpression
               (nullLiteral :: [numericLiteral 1, numericLiteral 2])]),
             selected := some (rootSlot ++ [.field "elements", .index 0]) } ∧
    insertFn nullLiteral
        (fileAST [arrayExpression [numericLiteral 1, numericLiteral 2]])
        (rootSlot ++ [.field "elements", .index ((0 : Nat) : Int)]) =
      some { ast := some (fileAST [arrayExpression
               ([numericLiteral 1, numericLiteral 2].take (0 + 1) ++
                 nullLiteral :: [numericLiteral 1, numericLiteral 2].drop (0 + 1))]),
             selected := some (rootSlot ++
               [.field "elements", .index (((0 : Nat) : Int) + 1)]) } :=
  C7_insert_wraps_objects_not_arrays
    [objectProperty (stringLiteral "a") nullLiteral]
    [numericLiteral 1, numericLiteral 2]
    nullLiteral (objectProperty (stringLiteral "a") nullLiteral) (numericLiteral 1)
    0 0 (by decide) (by decide) (by decide) (by decide) (by decide) (by decide)



theorem getIn_vlist_zero (x : Val) (xs : List Val) :
    (Val.vlist (x :: xs)).getIn [.index 0] = some x := by
  simp [Val.getIn, Val.getKey, listGet]

theorem getIn_vlist_one (x y : Val) (xs : List Val) :
    (Val.vlist (x :: y :: xs)).getIn [.index 1] = some y := by
  simp [Val.getIn, Val.getKey, listGet]

theorem getIn_vlist_neg_one (xs : List Val) (h : xs ≠ []) :
    (Val.vlist xs).getIn [.index (-1)] = xs.getLast? := by
  simp only [Val.getIn, Val.getKey, listGet_neg_one xs h]
  cases hx : xs.getLast? with
  | none => simp [List.getLast?_eq_none_iff.mp hx] at h
  | some y => simp

theorem updateIn_vlist_zero (x : Val) (xs : List Val) (g : Val → Val) :
    (Val.vlist (x :: xs)).updateIn [.index 0] g = .vlist (g x :: xs) := by
  simp [Val.updateIn, Val.getKey, listGet, Val.setKey, listSet]

theorem updateIn_vlist_one (x y : Val) (xs : List Val) (g : Val → Val) :
    (Val.vlist (x :: y :: xs)).updateIn [.index 1] g = .vlist (x :: g y :: xs) := by
  simp [Val.updateIn, Val.getKey, listGet, Val.setKey, listSet]

theorem valListInsert_zero (v : Val) (xs : List Val) :
    valListInsert (.index 0) v (.vlist xs) = .vlist (v :: xs) := by
  simp [valListInsert, listInsert, insertAt]

theorem valListInsert_nat (n : Nat) (v : Val) (xs : List Val) (h : n ≤ xs.length) :
    valListInsert (.index (n : Int)) v (.vlist xs) =
      .vlist (xs.take n ++ v :: xs.drop n) := by
  simp [valListInsert, listInsert_coe, insertAt_le_length _ _ _ h]

theorem valListDelete_zero (x : Val) (xs : List Val) :
    valListDelete (.index 0) (.vlist (x :: xs)) = .vlist xs := by
  simp [valListDelete, listDelete]

theorem valListDelete_one (x y : Val) (xs : List Val) :
    valListDelete (.index 1) (.vlist (x :: y :: xs)) = .vlist (x :: xs) := by
  simp [valListDelete, listDelete]



theorem moveSelected_C2_up (aKey bKey bVal : Val) (innerRest outerRest : List Val)
    (hlast : propWithObjectValue
      ((objectProperty bKey bVal :: innerRest).getLast?) = false) :
    moveSelected true
      (fileAST [objectExpression
        (objectProperty aKey
          (objectExpression (objectProperty bKey bVal :: innerRest)) :: outerRest)])
      (rootSlot ++ [.field "properties", .index 0, .field "value",
        .field "properties", .index 0]) =
    some
      (fileAST [objectExpression
        (objectProperty bKey bVal ::
          objectProperty aKey (objectExpression innerRest) :: outerRest)],
       rootSlot ++ [.field "properties", .index 0]) := by
  have hgin : ∀ q : ASTPath,
      (fileAST [objectExpression
        (objectProperty aKey
          (objectExpression (objectProperty bKey bVal :: innerRest)) :: outerRest)]).getIn
        ((rootSlot ++ [.field "properties", .index 0, .field "value",
          .field "properties"]) ++ q) =
      (Val.vlist (objectProperty bKey bVal :: innerRest)).getIn q := by
    intro q
    rw [show ((rootSlot ++ [Step.field "properties", Step.index 0, Step.field "value",
        Step.field "properties"]) ++ q : ASTPath) =
      rootSlot ++ ([Step.field "properties"] ++ ([Step.index 0] ++
        ([Step.field "value"] ++ ([Step.field "properties"] ++ q)))) from by simp]
    rw [getIn_append, getIn_fileAST, Option.some_bind,
      getIn_append, getIn_object_props, Option.some_bind,
      getIn_append, getIn_vlist_zero, Option.some_bind,
      getIn_append, getIn_prop_value, Option.some_bind,
      getIn_append, getIn_object_props, Option.some_bind]
  have hsel := hgin [.index 0]
  rw [getIn_vlist_zero] at hsel
  have hcp : getClosestCollectionPath
      (fileAST [objectExpression
        (objectProperty aKey
          (objectExpression (objectProperty bKey bVal :: innerRest)) :: outerRest)])
      (rootSlot ++ [.field "properties", .index 0, .field "value",
        .field "properties", .index 0]) =
      rootSlot ++ [.field "properties", .index 0, .field "value",
        .field "properties"] := by
    rw [show (rootSlot ++ [Step.field "properties", Step.index 0, Step.field "value",
        Step.field "properties", Step.index 0] : ASTPath) =
      (rootSlot ++ [Step.field "properties", Step.index 0, Step.field "value",
        Step.field "properties"]) ++ [Step.index 0] from by simp]
    simp only [getClosestCollectionPath, hsel]
    simp [isObjectExpression, isArrayExpression, takeToLastColl, isCollStep, rootSlot]
  have htgt : (fileAST [objectExpression
        (objectProperty aKey
          (objectExpression (objectProperty bKey bVal :: innerRest)) :: outerRest)]).getIn
      ((rootSlot ++ [.field "properties", .index 0, .field "value",
        .field "properties"]) ++ [.index ((0 : Int) + (if (true : Bool) then -1 else 1))]) =
      (objectProperty bKey bVal :: innerRest).getLast? := by
    rw [show ((0 : Int) + (if (true : Bool) then -1 else 1)) = -1 from by norm_num]
    rw [hgin [.index (-1)], getIn_vlist_neg_one _ (by simp)]
  rw [moveSelected_eval_boundary true _ _
    (rootSlot ++ [.field "properties", .index 0, .field "value", .field "properties"])
    (rootSlot ++ [.field "properties"]) 0 0
    (objectProperty bKey bVal)
    ((objectProperty bKey bVal :: innerRest).getLast?)
    (by simp [rootSlot])
    hcp
    (by simp [moveItemIndex, rootSlot])
    hsel
    (by simp [isObjectProperty])
    htgt
    hlast
    (Or.inl (by norm_num))
    ?hpcp ?hpar ?hcie ?hci]
  case hpcp =>
    rw [show (((rootSlot ++ [Step.field "properties", Step.index 0, Step.field "value",
        Step.field "properties"] : ASTPath) ++
          [Step.index ((0 : Int) + (if (true : Bool) then -1 else 1))]).take
        ((rootSlot ++ [Step.field "properties", Step.index 0, Step.field "value",
          Step.field "properties"] : ASTPath).length + 1 - 3)) =
      rootSlot ++ ([Step.field "properties"] ++ [Step.index 0]) from by simp [rootSlot]]
    have hga : (fileAST [objectExpression
        (objectProperty aKey
          (objectExpression (objectProperty bKey bVal :: innerRest)) :: outerRest)]).getIn
        (rootSlot ++ ([Step.field "properties"] ++ [Step.index 0])) =
        some (objectProperty aKey
          (objectExpression (objectProperty bKey bVal :: innerRest))) := by
      rw [getIn_append, getIn_fileAST, Option.some_bind,
        getIn_append, getIn_object_props, Option.some_bind, getIn_vlist_zero]
    simp only [getClosestCollectionPath, hga]
    simp [isObjectExpression, isArrayExpression, takeToLastColl, isCollStep, rootSlot]
  case hpar =>
    rw [show ((rootSlot ++ [Step.field "properties"] : ASTPath)).dropLast = rootSlot
      from by simp [rootSlot]]
    rw [getIn_fileAST]
    simp [isObjectExpressionO, isObjectExpression]
  case hcie => simp [rootSlot]
  case hci => simp [moveItemIndex, rootSlot]
  rw [show ((0 : Int) + (if (true : Bool) then 0 else 1)) = 0 from by norm_num]
  have hT1 : (fileAST [objectExpression
      (objectProperty aKey
        (objectExpression (objectProperty bKey bVal :: innerRest)) :: outerRest)]).updateIn
      (rootSlot ++ [.field "properties", .index 0, .field "value", .field "properties"])
      (valListDelete (.index 0)) =
      fileAST [objectExpression
        (objectProperty aKey (objectExpression innerRest) :: outerRest)] := by
    rw [show (rootSlot ++ [Step.field "properties", Step.index 0, Step.field "value",
        Step.field "properties"] : ASTPath) =
      rootSlot ++ ([Step.field "properties"] ++ ([Step.index 0] ++
        ([Step.field "value"] ++ [Step.field "properties"]))) from by simp]
    rw [updateIn_append, updateIn_fileAST,
      updateIn_append, updateIn_object_props,
      updateIn_append, updateIn_vlist_zero,
      updateIn_append, updateIn_prop_value,
      updateIn_object_props, valListDelete_zero]
    simp [fileAST, objectExpression, objectProperty]
  rw [hT1]
  rw [updateIn_append, updateIn_fileAST, updateIn_object_props, valListInsert_zero]
  simp [fileAST, objectExpression, objectProperty, rootSlot]



theorem addToHistory_C2_up (aKey bKey bVal : Val) (innerRest outerRest : List Val)
    (hlast : propWithObjectValue
      ((objectProperty bKey bVal :: innerRest).getLast?) = false)
    (s : HistState) (rest : List EditorState)
    (hh : s.history =
      ⟨fileAST [objectExpression
        (objectProperty aKey
          (objectExpression (objectProperty bKey bVal :: innerRest)) :: outerRest)],
       rootSlot ++ [.field "properties", .index 0, .field "value",
         .field "properties", .index 0]⟩ :: rest) :
    addToHistory (moveUpdFn true) s =
      ({ future := [],
         history :=
          (⟨fileAST [objectExpression
              (objectProperty bKey bVal ::
                objectProperty aKey (objectExpression innerRest) :: outerRest)],
            rootSlot ++ [.field "properties", .index 0]⟩ :: s.history).take
            MAX_HISTORY_LENGTH },
       [fileAST [objectExpression
          (objectProperty bKey bVal ::
            objectProperty aKey (objectExpression innerRest) :: outerRest)]]) := by
  have hmv := moveSelected_C2_up aKey bKey bVal innerRest outerRest hlast
  have hsel : (fileAST [objectExpression
      (objectProperty aKey
        (objectExpression (objectProperty bKey bVal :: innerRest)) :: outerRest)]).getIn
      (rootSlot ++ [.field "properties", .index 0, .field "value",
        .field "properties", .index 0]) = some (objectProperty bKey bVal) := by
    rw [show (rootSlot ++ [Step.field "properties", Step.index 0, Step.field "value",
        Step.field "properties", Step.index 0] : ASTPath) =
      rootSlot ++ ([Step.field "properties"] ++ ([Step.index 0] ++
        ([Step.field "value"] ++ ([Step.field "properties"] ++ [Step.index 0]))))
      from by simp]
    rw [getIn_append, getIn_fileAST, Option.some_bind,
      getIn_append, getIn_object_props, Option.some_bind,
      getIn_append, getIn_vlist_zero, Option.some_bind,
      getIn_append, getIn_prop_value, Option.some_bind,
      getIn_append, getIn_object_props, Option.some_bind, getIn_vlist_zero]
  have hns : normSel ⟨fileAST [objectExpression
      (objectProperty aKey
        (objectExpression (objectProperty bKey bVal :: innerRest)) :: outerRest)],
      rootSlot ++ [.field "properties", .index 0, .field "value",
        .field "properties", .index 0]⟩ =
      rootSlot ++ [.field "properties", .index 0, .field "value",
        .field "properties", .index 0] := by
    simp [normSel, hsel]
  have hna : normAst ⟨fileAST [objectExpression
      (objectProperty aKey
        (objectExpression (objectProperty bKey bVal :: innerRest)) :: outerRest)],
      rootSlot ++ [.field "properties", .index 0, .field "value",
        .field "properties", .index 0]⟩ =
      fileAST [objectExpression
        (objectProperty aKey
          (objectExpression (objectProperty bKey bVal :: innerRest)) :: outerRest)] := by
    simp only [normAst, hns, hsel]
    simp [isNumericLiteral]
  have hcr : commitResult (moveUpdFn true)
      ⟨fileAST [objectExpression
        (objectProperty aKey
          (objectExpression (objectProperty bKey bVal :: innerRest)) :: outerRest)],
       rootSlot ++ [.field "properties", .index 0, .field "value",
         .field "properties", .index 0]⟩ =
      ⟨fileAST [objectExpression
          (objectProperty bKey bVal ::
            objectProperty aKey (objectExpression innerRest) :: outerRest)],
        rootSlot ++ [.field "properties", .index 0]⟩ := by
    simp [commitResult, hns, hna, moveUpdFn, hmv]
  have hneq : fileAST [objectExpression
      (objectProperty bKey bVal ::
        objectProperty aKey (objectExpression innerRest) :: outerRest)] ≠
      fileAST [objectExpression
        (objectProperty aKey
          (objectExpression (objectProperty bKey bVal :: innerRest)) :: outerRest)] := by
    intro h
    have g1 := congrArg (fun t => t.getIn (rootSlot ++ [Step.field "properties"])) h
    simp only [getIn_append, getIn_fileAST, Option.some_bind, getIn_object_props] at g1
    have g2 := congrArg (fun o => o.map (fun v => match v with
      | Val.vlist l => l.length
      | _ => 0)) g1
    simp at g2
  simp only [addToHistory, hh, hcr, hna]
  rw [if_neg (by simp [hneq])]
  simp [hneq]



theorem objectExpression_eta (l : List Val) :
    Val.vmap [("type", Val.vstr "ObjectExpression"), ("properties", Val.vlist l)] =
      objectExpression l := rfl

theorem objectProperty_eta (k v : Val) :
    Val.vmap [("type", Val.vstr "ObjectProperty"), ("key", k), ("value", v)] =
      objectProperty k v := rfl

theorem moveSelected_C3_up (tKey iKey iVal : Val) (qs rest : List Val) (sub : ASTPath)
    (hend : ((rootSlot ++ [.field "properties"]) ++
      (Step.index 1 :: sub) : ASTPath).getLast? ≠ some (.field "end"))
    (hcp : getClosestCollectionPath
      (fileAST [objectExpression
        (objectProperty tKey (objectExpression qs) ::
          objectProperty iKey iVal :: rest)])
      ((rootSlot ++ [.field "properties"]) ++ (Step.index 1 :: sub)) =
      rootSlot ++ [.field "properties"]) :
    moveSelected true
      (fileAST [objectExpression
        (objectProperty tKey (objectExpression qs) ::
          objectProperty iKey iVal :: rest)])
      ((rootSlot ++ [.field "properties"]) ++ (Step.index 1 :: sub)) =
    some
      (fileAST [objectExpression
        (objectProperty tKey (objectExpression (qs ++ [objectProperty iKey iVal])) ::
          rest)],
       (rootSlot ++ [.field "properties"]) ++
         [.index 0, .field "value", .field "properties", .index (qs.length : Int)]
         ++ sub) := by
  have hitem : (fileAST [objectExpression
      (objectProperty tKey (objectExpression qs) ::
        objectProperty iKey iVal :: rest)]).getIn
      ((rootSlot ++ [.field "properties"]) ++ [.index 1]) =
      some (objectProperty iKey iVal) := by
    rw [show ((rootSlot ++ [Step.field "properties"]) ++ [Step.index 1] : ASTPath) =
      rootSlot ++ ([Step.field "properties"] ++ [Step.index 1]) from by simp]
    rw [getIn_append, getIn_fileAST, Option.some_bind,
      getIn_append, getIn_object_props, Option.some_bind, getIn_vlist_one]
  have htgt : (fileAST [objectExpression
      (objectProperty tKey (objectExpression qs) ::
        objectProperty iKey iVal :: rest)]).getIn
      ((rootSlot ++ [.field "properties"]) ++
        [.index ((1 : Int) + (if (true : Bool) then -1 else 1))]) =
      some (objectProperty tKey (objectExpression qs)) := by
    rw [show ((1 : Int) + (if (true : Bool) then -1 else 1)) = 0 from by norm_num]
    rw [show ((rootSlot ++ [Step.field "properties"]) ++ [Step.index 0] : ASTPath) =
      rootSlot ++ ([Step.field "properties"] ++ [Step.index 0]) from by simp]
    rw [getIn_append, getIn_fileAST, Option.some_bind,
      getIn_append, getIn_object_props, Option.some_bind, getIn_vlist_zero]
  have hti : (if (true : Bool) then
      (match (fileAST [objectExpression
        (objectProperty tKey (objectExpression qs) ::
          objectProperty iKey iVal :: rest)]).getIn
        ((rootSlot ++ [.field "properties"]) ++
          [.index ((1 : Int) + (if (true : Bool) then -1 else 1)),
           .field "value", .field "properties"]) with
       | some (.vlist xs) => xs.length
       | _ => 0)
      else 0) = qs.length := by
    rw [show ((1 : Int) + (if (true : Bool) then -1 else 1)) = 0 from by norm_num]
    rw [show ((rootSlot ++ [Step.field "properties"]) ++
        [Step.index 0, Step.field "value", Step.field "properties"] : ASTPath) =
      rootSlot ++ ([Step.field "properties"] ++ ([Step.index 0] ++
        ([Step.field "value"] ++ [Step.field "properties"]))) from by simp]
    rw [getIn_append, getIn_fileAST, Option.some_bind,
      getIn_append, getIn_object_props, Option.some_bind,
      getIn_append, getIn_vlist_zero, Option.some_bind,
      getIn_append, getIn_prop_value, Option.some_bind, getIn_object_props]
    simp
  rw [moveSelected_eval_nested true _ _
    (rootSlot ++ [.field "properties"]) 1
    (objectProperty iKey iVal)
    (objectProperty tKey (objectExpression qs))
    qs.length
    hend hcp
    (by simp only [moveItemIndex, get?_append_cons_self])
    hitem
    (by simp [isObjectProperty])
    htgt
    (by rw [propWithObjectValue_objectProperty]; simp [isObjectExpression])
    hti]
  rw [show ((1 : Int) + (if (true : Bool) then -1 else 1)) = 0 from by norm_num,
    show ((0 : Int) + (if (true : Bool) then 0 else -1)) = 0 from by norm_num]
  rw [show ((rootSlot ++ [Step.field "properties"]) ++
      [Step.index 0, Step.field "value", Step.field "properties"] : ASTPath) =
    rootSlot ++ ([Step.field "properties"] ++ ([Step.index 0] ++
      ([Step.field "value"] ++ [Step.field "properties"]))) from by simp]
  simp only [updateIn_append, updateIn_fileAST, updateIn_object_props,
    updateIn_vlist_zero, updateIn_prop_value,
    valListInsert_nat qs.length _ qs (Nat.le_refl _),
    List.take_length, List.drop_length, valListDelete_one,
    objectExpression_eta, objectProperty_eta, drop_append_cons_self]



theorem moveSelected_C3_down (tKey iKey iVal : Val) (qs rest : List Val) (sub : ASTPath)
    (hend : ((rootSlot ++ [.field "properties"]) ++
      (Step.index 0 :: sub) : ASTPath).getLast? ≠ some (.field "end"))
    (hcp : getClosestCollectionPath
      (fileAST [objectExpression
        (objectProperty iKey iVal ::
          objectProperty tKey (objectExpression qs) :: rest)])
      ((rootSlot ++ [.field "properties"]) ++ (Step.index 0 :: sub)) =
      rootSlot ++ [.field "properties"]) :
    moveSelected false
      (fileAST [objectExpression
        (objectProperty iKey iVal ::
          objectProperty tKey (objectExpression qs) :: rest)])
      ((rootSlot ++ [.field "properties"]) ++ (Step.index 0 :: sub)) =
    some
      (fileAST [objectExpression
        (objectProperty tKey (objectExpression (objectProperty iKey iVal :: qs)) ::
          rest)],
       (rootSlot ++ [.field "properties"]) ++
         [.index 0, .field "value", .field "properties", .index 0] ++ sub) := by
  have hitem : (fileAST [objectExpression
      (objectProperty iKey iVal ::
        objectProperty tKey (objectExpression qs) :: rest)]).getIn
      ((rootSlot ++ [.field "properties"]) ++ [.index 0]) =
      some (objectProperty iKey iVal) := by
    rw [show ((rootSlot ++ [Step.field "properties"]) ++ [Step.index 0] : ASTPath) =
      rootSlot ++ ([Step.field "properties"] ++ [Step.index 0]) from by simp]
    rw [getIn_append, getIn_fileAST, Option.some_bind,
      getIn_append, getIn_object_props, Option.some_bind, getIn_vlist_zero]
  have htgt : (fileAST [objectExpression
      (objectProperty iKey iVal ::
        objectProperty tKey (objectExpression qs) :: rest)]).getIn
      ((rootSlot ++ [.field "properties"]) ++
        [.index ((0 : Int) + (if (false : Bool) then -1 else 1))]) =
      some (objectProperty tKey (objectExpression qs)) := by
    rw [show ((0 : Int) + (if (false : Bool) then -1 else 1)) = 1 from by norm_num]
    rw [show ((rootSlot ++ [Step.field "properties"]) ++ [Step.index 1] : ASTPath) =
      rootSlot ++ ([Step.field "properties"] ++ [Step.index 1]) from by simp]
    rw [getIn_append, getIn_fileAST, Option.some_bind,
      getIn_append, getIn_object_props, Option.some_bind, getIn_vlist_one]
  rw [moveSelected_eval_nested false _ _
    (rootSlot ++ [.field "properties"]) 0
    (objectProperty iKey iVal)
    (objectProperty tKey (objectExpression qs))
    0
    hend hcp
    (by simp only [moveItemIndex, get?_append_cons_self])
    hitem
    (by simp [isObjectProperty])
    htgt
    (by rw [propWithObjectValue_objectProperty]; simp [isObjectExpression])
    (by simp)]
  rw [show ((0 : Int) + (if (false : Bool) then -1 else 1)) = 1 from by norm_num,
    show ((1 : Int) + (if (false : Bool) then 0 else -1)) = 0 from by norm_num]
  rw [show ((rootSlot ++ [Step.field "properties"]) ++
      [Step.index 1, Step.field "value", Step.field "properties"] : ASTPath) =
    rootSlot ++ ([Step.field "properties"] ++ ([Step.index 1] ++
      ([Step.field "value"] ++ [Step.field "properties"]))) from by simp]
  simp only [updateIn_append, updateIn_fileAST, updateIn_object_props,
    updateIn_vlist_one, updateIn_prop_value, valListInsert_zero,
    valListDelete_zero, objectExpression_eta, objectProperty_eta,
    drop_append_cons_self]
  simp only [Nat.cast_zero, valListInsert_zero, objectExpression_eta]


/-- Claim C2 (corrected): in a document object holding a property (here at
index 0, key aKey) whose value is a nested object with a property b at
index 0, MOVE UP on b relocates b out of the nested object into the outer
object, immediately before the enclosing property, and addToHistory
records this as a tree-changing commit (the history is pushed, the future
stack is cleared, and the new tree is handed to generator + onChange) -
PROVIDED the value of the last property of the nested object is not itself
an ObjectExpression: Immutable.js getIn with index -1 wraps to that last
property, and when its value is an object the nested-object branch of
moveSelected fires instead of the boundary branch (see C2_counterexample,
where b is destroyed instead of relocated). -/
theorem C2_boundary_move_up (aKey bKey bVal : Val) (innerRest outerRest : List Val)
    (hlast : propWithObjectValue
      ((objectProperty bKey bVal :: innerRest).getLast?) = false) :
    moveSelected true
      (fileAST [objectExpression
        (objectProperty aKey
          (objectExpression (objectProperty bKey bVal :: innerRest)) :: outerRest)])
      (rootSlot ++ [.field "properties", .index 0, .field "value",
        .field "properties", .index 0]) =
    some
      (fileAST [objectExpression
        (objectProperty bKey bVal ::
          objectProperty aKey (objectExpression innerRest) :: outerRest)],
       rootSlot ++ [.field "properties", .index 0]) ∧
    (∀ (s : HistState) (rest : List EditorState),
      s.history =
        ⟨fileAST [objectExpression
          (objectProperty aKey
            (objectExpression (objectProperty bKey bVal :: innerRest)) :: outerRest)],
         rootSlot ++ [.field "properties", .index 0, .field "value",
           .field "properties", .index 0]⟩ :: rest →
      addToHistory (moveUpdFn true) s =
        ({ future := [],
           history :=
            (⟨fileAST [objectExpression
                (objectProperty bKey bVal ::
                  objectProperty aKey (objectExpression innerRest) :: outerRest)],
              rootSlot ++ [.field "properties", .index 0]⟩ :: s.history).take
              MAX_HISTORY_LENGTH },
         [fileAST [objectExpression
            (objectProperty bKey bVal ::
              objectProperty aKey (objectExpression innerRest) :: outerRest)]])) :=
  ⟨moveSelected_C2_up aKey bKey bVal innerRest outerRest hlast,
   fun s rest hh => addToHistory_C2_up aKey bKey bVal innerRest outerRest hlast s rest hh⟩

/-- Witness for C2_boundary_move_up: the tree of spec scenario 4,
an object holding a: with b: 1 nested inside, with b selected. -/
theorem C2_witness :
    moveSelected true
      (fileAST [objectExpression
        [objectProperty (stringLiteral "a")
          (objectExpression [objectProperty (stringLiteral "b") (numericLiteral 1)])]])
      (rootSlot ++ [.field "properties", .index 0, .field "value",
        .field "properties", .index 0]) =
    some
      (fileAST [objectExpression
        [objectProperty (stringLiteral "b") (numericLiteral 1),
         objectProperty (stringLiteral "a") (objectExpression [])]],
       rootSlot ++ [.field "properties", .index 0]) ∧
    addToHistory (moveUpdFn true)
      ⟨[], [⟨fileAST [objectExpression
          [objectProperty (stringLiteral "a")
            (objectExpression [objectProperty (stringLiteral "b") (numericLiteral 1)])]],
        rootSlot ++ [.field "properties", .index 0, .field "value",
          .field "properties", .index 0]⟩]⟩ =
      ({ future := [],
         history :=
          (⟨fileAST [objectExpression
              [objectProperty (stringLiteral "b") (numericLiteral 1),
               objectProperty (stringLiteral "a") (objectExpression [])]],
            rootSlot ++ [.field "properties", .index 0]⟩ ::
            [⟨fileAST [objectExpression
                [objectProperty (stringLiteral "a")
                  (objectExpression
                    [objectProperty (stringLiteral "b") (numericLiteral 1)])]],
              rootSlot ++ [.field "properties", .index 0, .field "value",
                .field "properties", .index 0]⟩]).take MAX_HISTORY_LENGTH },
       [fileAST [objectExpression
          [objectProperty (stringLiteral "b") (numericLiteral 1),
           objectProperty (stringLiteral "a") (objectExpression [])]]]) :=
  ⟨(C2_boundary_move_up (stringLiteral "a") (stringLiteral "b") (numericLiteral 1)
      [] [] (by decide)).1,
   (C2_boundary_move_up (stringLiteral "a") (stringLiteral "b") (numericLiteral 1)
      [] [] (by decide)).2 _ [] rfl⟩

/-- Claim C2 counterexample: when the value of b is itself an (empty)
ObjectExpression, b is the last property of the nested object, the
wrap-around index -1 resolves to b itself and the nested-object branch
fires: MOVE UP does not relocate b before a as the claim states - b
vanishes from the tree entirely (the outer object is left holding only a,
whose nested object is now empty). -/
theorem C2_counterexample :
    moveSelected true
      (fileAST [objectExpression
        [objectProperty (stringLiteral "a")
          (objectExpression [objectProperty (stringLiteral "b") (objectExpression [])])]])
      (rootSlot ++ [.field "properties", .index 0, .field "value",
        .field "properties", .index 0]) ≠
    some
      (fileAST [objectExpression
        [objectProperty (stringLiteral "b") (objectExpression []),
         objectProperty (stringLiteral "a") (objectExpression [])]],
       rootSlot ++ [.field "properties", .index 0]) ∧
    (moveSelected true
      (fileAST [objectExpression
        [objectProperty (stringLiteral "a")
          (objectExpression [objectProperty (stringLiteral "b") (objectExpression [])])]])
      (rootSlot ++ [.field "properties", .index 0, .field "value",
        .field "properties", .index 0])).map
      (fun r => r.1.getIn (rootSlot ++ [.field "properties"])) =
    some (some (.vlist [objectProperty (stringLiteral "a") (objectExpression [])])) := by
  constructor
  · decide
  · decide

/-- Claim C3 (corrected): a property whose adjacent sibling in the move
direction is a property holding an ObjectExpression is moved inside that
nested object and removed from its original collection, with the selection
rewritten into the nested location and any deeper sub-selection preserved;
but the insertion position is the properties TAIL when moving UP and the
HEAD when moving DOWN - the reverse of the claimed
tail-on-DOWN / head-on-UP (see C3_counterexample). -/
theorem C3_move_into_sibling_object (tKey iKey iVal : Val)
    (qs rest rest2 : List Val) (sub sub2 : ASTPath)
    (hendU : ((rootSlot ++ [.field "properties"]) ++
      (Step.index 1 :: sub) : ASTPath).getLast? ≠ some (.field "end"))
    (hcpU : getClosestCollectionPath
      (fileAST [objectExpression
        (objectProperty tKey (objectExpression qs) ::
          objectProperty iKey iVal :: rest)])
      ((rootSlot ++ [.field "properties"]) ++ (Step.index 1 :: sub)) =
      rootSlot ++ [.field "properties"])
    (hendD : ((rootSlot ++ [.field "properties"]) ++
      (Step.index 0 :: sub2) : ASTPath).getLast? ≠ some (.field "end"))
    (hcpD : getClosestCollectionPath
      (fileAST [objectExpression
        (objectProperty iKey iVal ::
          objectProperty tKey (objectExpression qs) :: rest2)])
      ((rootSlot ++ [.field "properties"]) ++ (Step.index 0 :: sub2)) =
      rootSlot ++ [.field "properties"]) :
    moveSelected true
      (fileAST [objectExpression
        (objectProperty tKey (objectExpression qs) ::
          objectProperty iKey iVal :: rest)])
      ((rootSlot ++ [.field "properties"]) ++ (Step.index 1 :: sub)) =
    some
      (fileAST [objectExpression
        (objectProperty tKey (objectExpression (qs ++ [objectProperty iKey iVal])) ::
          rest)],
       (rootSlot ++ [.field "properties"]) ++
         [.index 0, .field "value", .field "properties", .index (qs.length : Int)]
         ++ sub) ∧
    moveSelected false
      (fileAST [objectExpression
        (objectProperty iKey iVal ::
          objectProperty tKey (objectExpression qs) :: rest2)])
      ((rootSlot ++ [.field "properties"]) ++ (Step.index 0 :: sub2)) =
    some
      (fileAST [objectExpression
        (objectProperty tKey (objectExpression (objectProperty iKey iVal :: qs)) ::
          rest2)],
       (rootSlot ++ [.field "properties"]) ++
         [.index 0, .field "value", .field "properties", .index 0] ++ sub2) :=
  ⟨moveSelected_C3_up tKey iKey iVal qs rest sub hendU hcpU,
   moveSelected_C3_down tKey iKey iVal qs rest2 sub2 hendD hcpD⟩

/-- Witness for C3_move_into_sibling_object: moving i: 2 up into a sibling
object t (empty) and down into a following sibling object t (empty). -/
theorem C3_witness :
    moveSelected true
      (fileAST [objectExpression
        [objectProperty (stringLiteral "t") (objectExpression []),
         objectProperty (stringLiteral "i") (numericLiteral 2)]])
      ((rootSlot ++ [.field "properties"]) ++ [Step.index 1]) =
    some
      (fileAST [objectExpression
        [objectProperty (stringLiteral "t")
          (objectExpression ([] ++ [objectProperty (stringLiteral "i") (numericLiteral 2)]))]],
       (rootSlot ++ [.field "properties"]) ++
         [.index 0, .field "value", .field "properties",
          .index (List.length ([] : List Val) : Int)] ++ []) ∧
    moveSelected false
      (fileAST [objectExpression
        [objectProperty (stringLiteral "i") (numericLiteral 2),
         objectProperty (stringLiteral "t") (objectExpression [])]])
      ((rootSlot ++ [.field "properties"]) ++ [Step.index 0]) =
    some
      (fileAST [objectExpression
        [objectProperty (stringLiteral "t")
          (objectExpression [objectProperty (stringLiteral "i") (numericLiteral 2)])]],
       (rootSlot ++ [.field "properties"]) ++
         [.index 0, .field "value", .field "properties", .index 0] ++ []) :=
  C3_move_into_sibling_object (stringLiteral "t") (stringLiteral "i")
    (numericLiteral 2) [] [] [] [] []
    (by decide) (by decide) (by decide) (by decide)

/-- Claim C3 counterexample: with the nested object nonempty (t holds q),
MOVE UP inserts the moved property at the TAIL of the nested properties
(after q, at index 1), not at the head as the claim states; the second
conjunct records that the two orders differ. -/
theorem C3_counterexample :
    moveSelected true
      (fileAST [objectExpression
        [objectProperty (stringLiteral "t")
          (objectExpression [objectProperty (stringLiteral "q") (numericLiteral 1)]),
         objectProperty (stringLiteral "i") (numericLiteral 2)]])
      (rootSlot ++ [.field "properties", .index 1]) =
    some
      (fileAST [objectExpression
        [objectProperty (stringLiteral "t")
          (objectExpression
            [objectProperty (stringLiteral "q") (numericLiteral 1),
             objectProperty (stringLiteral "i") (numericLiteral 2)])]],
       rootSlot ++ [.field "properties", .index 0, .field "value",
         .field "properties", .index 1]) ∧
    ([objectProperty (stringLiteral "q") (numericLiteral 1),
      objectProperty (stringLiteral "i") (numericLiteral 2)] : List Val) ≠
    [objectProperty (stringLiteral "i") (numericLiteral 2),
     objectProperty (stringLiteral "q") (numericLiteral 1)] := by
  constructor
  · decide
  · decide

/-- Claim C8 (confirmed): when the last step of the selection is the "end"
sentinel, the copy handler exports the rendering of the node addressed by
the selection with its last two steps removed (an "end" selection itself
addresses no node, so the editable-leaf guard never fires there); and when
the selected node is an editable leaf - StringLiteral, NumericLiteral or
Identifier - copy exports nothing and cut neither exports nor changes the
editor state. -/
theorem C8_copy_export_and_editable_guard (gen : Val → String)
    (st st2 : EditorState) (n : Val)
    (hend : st.selected.getLast? = some (.field "end"))
    (hun : st.ast.getIn st.selected = none)
    (hn : st.ast.getIn (st.selected.take (st.selected.length - 2)) = some n)
    (hed : isEditableO (st2.ast.getIn st2.selected) = true) :
    handleCopy gen st = some (gen n) ∧
    handleCopy gen st2 = none ∧
    (∀ (s : HistState) (rest : List EditorState), s.history = st2 :: rest →
      handleCut gen s = (none, s)) := by
  refine ⟨?_, ?_, ?_⟩
  · simp [handleCopy, hun, hend, hn, isEditableO]
  · simp [handleCopy, hed]
  · intro s rest hh
    simp [handleCut, hh, hed]

/-- Witness for C8_copy_export_and_editable_guard: an "end" selection in a
two-element array exports the array itself, and a selected string literal
suppresses copy and cut. -/
theorem C8_witness :
    handleCopy (fun _ => "out")
      ⟨fileAST [arrayExpression [numericLiteral 1, numericLiteral 2]],
       rootSlot ++ [.field "elements", .field "end"]⟩ = some "out" ∧
    handleCopy (fun _ => "out") ⟨stringLiteral "s", []⟩ = none ∧
    (∀ (s : HistState) (rest : List EditorState),
      s.history = ⟨stringLiteral "s", []⟩ :: rest →
      handleCut (fun _ => "out") s = (none, s)) := by
  exact C8_copy_export_and_editable_guard (fun _ => "out")
    ⟨fileAST [arrayExpression [numericLiteral 1, numericLiteral 2]],
     rootSlot ++ [.field "elements", .field "end"]⟩
    ⟨stringLiteral "s", []⟩
    (arrayExpression [numericLiteral 1, numericLiteral 2])
    (by decide) (by decide) (by decide) (by decide)

/-- Claim C1 (corrected): when the history stack has exactly one entry,
undo leaves the history stack - and with it the exposed current state -
unchanged, but the future stack is not unchanged: undo unshifts a copy of
the current head onto it in every case, including this one. -/
theorem C1_undo_single_entry (s : HistState) (st : EditorState)
    (h : s.history = [st]) :
    (undoH s).history = s.history ∧ (undoH s).future = st :: s.future := by
  simp [undoH, h]

/-- Witness for C1_undo_single_entry at a concrete one-entry state. -/
theorem C1_witness :
    (undoH ⟨[], [⟨nullLiteral, []⟩]⟩).history = [(⟨nullLiteral, []⟩ : EditorState)] ∧
    (undoH ⟨[], [⟨nullLiteral, []⟩]⟩).future = ⟨nullLiteral, []⟩ :: [] := by
  exact C1_undo_single_entry ⟨[], [⟨nullLiteral, []⟩]⟩ ⟨nullLiteral, []⟩ rfl

/-- Claim C1 counterexample: at a concrete state whose history holds
exactly one entry, calling undo changes the future stack (it gains a copy
of the current head), so undo is not a no-op on the future stack as the
claim states. -/
theorem C1_counterexample :
    (undoH ⟨[], [⟨nullLiteral, []⟩]⟩).future ≠
      (HistState.future ⟨[], [⟨nullLiteral, []⟩]⟩) := by
  decide

/-- Claim C5 (confirmed): a commit whose update function returns the tree
and the selection it was handed (the current ones, as normalized at the
start of the commit) unchanged records nothing: the component state -
history stack and future stack - is returned untouched and no tree is
handed to the generator and the onChange callback. -/
theorem C5_noop_commit_records_nothing (s : HistState) (st : EditorState)
    (rest : List EditorState) (f : UpdFn) (hh : s.history = st :: rest)
    (hf : f (normAst st) (normSel st) =
      some { ast := some (normAst st), selected := some (normSel st) }) :
    addToHistory f s = (s, []) := by
  have hc : commitResult f st = ⟨normAst st, normSel st⟩ := by
    simp [commitResult, hf]
  simp [addToHistory, hh, hc]

/-- Witness for C5_noop_commit_records_nothing: the identity update
function on a concrete one-entry state. -/
theorem C5_witness :
    addToHistory
      (fun a sel => some { ast := some a, selected := some sel })
      ⟨[], [⟨nullLiteral, []⟩]⟩ = (⟨[], [⟨nullLiteral, []⟩]⟩, []) := by
  exact C5_noop_commit_records_nothing _ ⟨nullLiteral, []⟩ [] _ rfl rfl

/-- Claim C6 (confirmed): after a tree-changing commit from a state whose
history is nonempty (so the new history has at least two entries), undo
exposes exactly the EditorState that was the head before the commit, and
redo right after that undo exposes exactly the committed state again. -/
theorem C6_undo_redo_inverse (s : HistState) (st : EditorState)
    (rest : List EditorState) (f : UpdFn) (hh : s.history = st :: rest)
    (hchange : (commitResult f st).ast ≠ normAst st) :
    (undoH (addToHistory f s).1).history.head? = some st ∧
    (redoH (undoH (addToHistory f s).1)).history.head? =
      some (commitResult f st) := by
  have hstep : (addToHistory f s).1 =
      ⟨[], commitResult f st :: st :: rest.take 98⟩ := by
    simp only [addToHistory, hh]
    rw [if_neg (by simp [hchange])]
    simp [MAX_HISTORY_LENGTH, List.take_succ_cons]
  rw [hstep]
  refine ⟨?_, ?_⟩
  · simp [undoH]
  · simp [undoH, redoH]

/-- Witness for C6_undo_redo_inverse at a concrete state and commit. -/
theorem C6_witness :
    (undoH (addToHistory
        (fun _ _ => some { ast := some (stringLiteral "x"), selected := none })
        ⟨[], [⟨nullLiteral, []⟩]⟩).1).history.head? =
      some ⟨nullLiteral, []⟩ ∧
    (redoH (undoH (addToHistory
        (fun _ _ => some { ast := some (stringLiteral "x"), selected := none })
        ⟨[], [⟨nullLiteral, []⟩]⟩).1)).history.head? =
      some (commitResult
        (fun _ _ => some { ast := some (stringLiteral "x"), selected := none })
        ⟨nullLiteral, []⟩) := by
  exact C6_undo_redo_inverse ⟨[], [⟨nullLiteral, []⟩]⟩ ⟨nullLiteral, []⟩ [] _
    rfl (by decide)

/-- Claim C9 (confirmed): at the start of every commit, a selection that
does not resolve and whose last step is not the "end" sentinel is replaced
by the empty path, and when the (possibly replaced) selection resolves to
a numeric literal, the "value" field of that literal holds the canonical
numeric string - parseFloat then stringify - in the tree that addToHistory
hands to the update function (commitResult applies the update function to
exactly normAst and normSel). -/
theorem C9_precommit_normalization :
    (∀ st : EditorState,
        st.selected.getLast? ≠ some (.field "end") →
        st.ast.getIn st.selected = none → normSel st = []) ∧
    (∀ (st : EditorState) (n v : Val),
        st.ast.getIn (normSel st) = some n →
        isNumericLiteral n = true →
        n.getKey (.field "value") = some v →
        (normAst st).getIn (normSel st ++ [.field "value"]) =
          some (renormVal v)) := by
  constructor
  · intro st h1 h2
    simp [normSel, h1, h2]
  · intro st n v hn hnum hv
    have hval : st.ast.getIn (normSel st ++ [.field "value"]) = some v := by
      rw [getIn_append, hn]
      simp [Val.getIn, hv]
    simp only [normAst, hn, hnum, if_pos]
    exact getIn_updateIn_self st.ast (normSel st ++ [.field "value"])
      renormVal v hval

/-- Witness for C9_precommit_normalization: a stale selection falls back to
the empty path, and a numeric literal at the (empty) selection has its
value field re-normalized in the tree handed to the update function. -/
theorem C9_witness :
    normSel ⟨nullLiteral, [.field "nope"]⟩ = [] ∧
    (normAst ⟨numericLiteral 5, []⟩).getIn [.field "value"] =
      some (renormVal (.vnum 5)) := by
  constructor
  · exact C9_precommit_normalization.1 ⟨nullLiteral, [.field "nope"]⟩
      (by decide) (by decide)
  · exact C9_precommit_normalization.2 ⟨numericLiteral 5, []⟩
      (numericLiteral 5) (.vnum 5) (by decide) (by decide) (by decide)

/-- Claim C10 (confirmed): undo and redo hand no tree to the generator and
the onChange callback in any state - their bodies contain no call to
either - and a commit hands a tree to them exactly when the tree produced
by the update function differs from the (normalized) tree the update
function was given. -/
theorem C10_undo_redo_silent (s : HistState) (f : UpdFn) (st : EditorState)
    (rest : List EditorState) (hh : s.history = st :: rest) :
    (stepOp s .undo).2 = [] ∧ (stepOp s .redo).2 = [] ∧
    ((stepOp s (.commit f)).2 ≠ [] ↔ (commitResult f st).ast ≠ normAst st) := by
  refine ⟨rfl, rfl, ?_⟩
  simp only [stepOp, addToHistory, hh]
  by_cases h : (commitResult f st).ast = normAst st
  · simp [h]
    split <;> rfl
  · simp [h]

/-- Witness for C10_undo_redo_silent at a concrete state, with a concrete
tree-changing update function. -/
theorem C10_witness :
    (stepOp ⟨[], [⟨nullLiteral, []⟩]⟩ .undo).2 = [] ∧
    (stepOp ⟨[], [⟨nullLiteral, []⟩]⟩ .redo).2 = [] ∧
    ((stepOp ⟨[], [⟨nullLiteral, []⟩]⟩
        (.commit (fun _ _ => some { ast := some (stringLiteral "y"), selected := none }))).2 ≠ [] ↔
      (commitResult (fun _ _ => some { ast := some (stringLiteral "y"), selected := none })
        ⟨nullLiteral, []⟩).ast ≠ normAst ⟨nullLiteral, []⟩) := by
  exact C10_undo_redo_silent ⟨[], [⟨nullLiteral, []⟩]⟩ _ ⟨nullLiteral, []⟩ [] rfl

end Upcode
